import Mathlib

set_option maxRecDepth 10000

/-!
Verification of the Seal client-side threshold-IBE library.

Byte strings are modelled as lists over a field `F`: in the implementation a
byte is an element of GF(256) (the field used by the on-chain verifier), where
the byte-wise `xor` of the TypeScript code is field addition.  All theorems
that rely on `xor` being an involution carry the characteristic-2 hypothesis
`∀ x : F, x + x = 0` explicitly, so the development is honest about which
algebraic facts of GF(256) are used.  External primitives (SHA3 HMAC, HKDF,
AES-GCM, the BLS12-381 pairing) are taken as function parameters; hypotheses
state exactly the contracts the surrounding code needs from them (output
lengths, bilinearity, AES round-trip).
-/

namespace Seal

/-- Checked byte-wise xor, from utils.ts `xor`: the source throws when the two
arrays have different lengths, modelled by returning `none`.  Byte xor is
addition in GF(256). -/
def xorB {F : Type} [Field F] (a b : List F) : Option (List F) :=
  if a.length = b.length then some (List.zipWith (· + ·) a b) else none

/-- Unchecked byte-wise xor, from utils.ts `xorUnchecked`: the source maps over
`a` and xors with `b[i]`.  It is only ever called with `b` at least as long as
`a`, where it agrees with `zipWith`. -/
def xorUnchecked {F : Type} [Field F] (a b : List F) : List F :=
  List.zipWith (· + ·) a b

/-- ASCII bytes of the hash-to-curve domain separation tag
"SUI-SEAL-IBE-BLS12381-00", from ibe.ts `DST`. -/
def DSTbytes : List Nat :=
  [83, 85, 73, 45, 83, 69, 65, 76, 45, 73, 66, 69, 45,
   66, 76, 83, 49, 50, 51, 56, 49, 45, 48, 48]

/-- The DST as field bytes. -/
def DSTf (F : Type) [Field F] : List F := DSTbytes.map (Nat.cast)

/-- Full identity bytes, from utils.ts `createFullId`:
`[len(DST)] ++ DST ++ packageId ++ innerId`.  The source validates the
package id (a 32-byte Sui object id) and works on hex strings; we model the
validation as a length check and stay on raw bytes. -/
def createFullId {F : Type} [Field F] (dst packageId innerId : List F) :
    Option (List F) :=
  if packageId.length = 32 then
    some ([(dst.length : F)] ++ dst ++ packageId ++ innerId)
  else none

/-- The full id as a total function, used to state cache hypotheses. -/
def fullIdOf {F : Type} [Field F] (packageId innerId : List F) : List F :=
  [((DSTf F).length : F)] ++ DSTf F ++ packageId ++ innerId

/- ### KDF module (kdf.ts) -/

/-- The fixed block permutation of kdf.ts `PERMUTATION`. -/
def PERM : List Nat := [0, 2, 4, 1, 3, 5]

/-- Write `seg` into `l` starting at offset `off`, leaving the rest unchanged;
models `Uint8Array.set(seg, off)` for in-range writes. -/
def setSlice {F : Type} [Field F] (l : List F) (off : Nat) (seg : List F) :
    List F :=
  l.take off ++ seg ++ l.drop (off + seg.length)

/-- Block `i` of a serialized GT element: 96 bytes starting at `i * 96`. -/
def blockOf {F : Type} [Field F] (bytes : List F) (i : Nat) : List F :=
  (bytes.drop (i * 96)).take 96

/-- The coefficient permutation loop of kdf.ts `kdf`: starting from a zeroed
576-byte buffer, write input block `i` at output offset `PERMUTATION[i] * 96`
for `i = 0..5`. -/
def permuteGT {F : Type} [Field F] (bytes : List F) : List F :=
  (List.range 6).foldl
    (fun acc i => setSlice acc (PERM.getD i 0 * 96) (blockOf bytes i))
    (List.replicate 576 (0 : F))

/-- Spec-shaped permutation: writing input block i to output position pi(i)
for pi = [0,2,4,1,3,5] means the output is the input blocks in the order
0, 3, 1, 4, 2, 5. -/
def permuteGTSpec {F : Type} [Field F] (bytes : List F) : List F :=
  blockOf bytes 0 ++ blockOf bytes 3 ++ blockOf bytes 1 ++
    blockOf bytes 4 ++ blockOf bytes 2 ++ blockOf bytes 5

/-- kdf.ts `kdf`: permute the serialized GT element and feed it to
HKDF-SHA3-256 with empty salt and 32-byte output.  The HKDF primitive
(with the empty salt and L = 32 already fixed) is the parameter `hkdf`:
it maps the ikm and the info to the 32-byte derived key. -/
def kdf {F : Type} [Field F] (hkdf : List F → List F → List F)
    (gtBytes info : List F) : List F :=
  hkdf (permuteGT gtBytes) info

/-- Key purposes of kdf.ts `KeyPurpose`. -/
inductive KeyPurpose
  | EncryptedRandomness
  | DEM
deriving DecidableEq

/-- kdf.ts `deriveKey`: HMAC-SHA3-256 of the base key with a one-byte tag,
0 for the randomness key and 1 for the DEM key.  `hmac` is the HMAC-SHA3-256
primitive (key then message). -/
def deriveKey {F : Type} [Field F] (hmac : List F → List F → List F)
    (purpose : KeyPurpose) (baseKey : List F) : List F :=
  match purpose with
  | .EncryptedRandomness => hmac baseKey [(0 : F)]
  | .DEM => hmac baseKey [(1 : F)]

/- ### Errors (error.ts) -/

/-- Error kinds thrown by the library (error.ts).  `plainError` stands for a
plain JavaScript `Error` (used for insufficient shares, combine failures and
the catch-all wrapping in decrypt.ts). -/
inductive SealErr
  | userError
  | unsupportedFeature
  | invalidCiphertext
  | invalidThreshold
  | inconsistentKeyServers
  | expiredSessionKey
  | invalidKeyServer
  | plainError
deriving DecidableEq

/- ### DEM module (dem.ts) -/

/-- Ciphertext variants of bcs.ts `Ciphertext`.  The optional aad of the BCS
struct is an `Option`. -/
inductive CiphertextM (F : Type)
  | Aes256Gcm (blob : List F) (aad : Option (List F))
  | Hmac256Ctr (blob : List F) (aad : Option (List F)) (mac : List F)
  | Plain
deriving DecidableEq

/-- DEM modes of encrypt.ts `DemType`. -/
inductive DemType
  | AesGcm256
  | Hmac256Ctr
deriving DecidableEq

/-- Little-endian 8-byte encoding of a u64 as field bytes, from dem.ts
`toBytes` (`bcs.u64().serialize`). -/
def u64le {F : Type} [Field F] (n : Nat) : List F :=
  (List.range 8).map (fun k => ((n / 256 ^ k % 256 : Nat) : F))

/-- dem.ts `Hmac256Ctr.computeMac`: mac key is HMAC(key, [2]); the mac is
HMAC(macKey, len(aad) as u64-LE || aad || ciphertext). -/
def computeMac {F : Type} [Field F] (hmac : List F → List F → List F)
    (key aad ciphertext : List F) : List F :=
  hmac (hmac key [(2 : F)]) (u64le aad.length ++ aad ++ ciphertext)

/-- Number of 32-byte blocks the CTR loop of dem.ts touches: the loop runs
while `i * 32 < msg.length`. -/
def numBlocks (len : Nat) : Nat := (len + 31) / 32

/-- dem.ts `Hmac256Ctr.encryptInCtrMode`: derive the encryption key
HMAC(key, [1]); block `i` of the output is block `i` of the input xored with
HMAC(encryptionKey, i as u64-LE).  The source writes each xored block into a
result buffer at offset `i * 32`; since each mask has 32 bytes the buffer is
exactly the concatenation of the xored blocks. -/
def encryptInCtrMode {F : Type} [Field F] (hmac : List F → List F → List F)
    (key msg : List F) : List F :=
  (List.range (numBlocks msg.length)).flatMap
    (fun i => xorUnchecked ((msg.drop (i * 32)).take 32)
      (hmac (hmac key [(1 : F)]) (u64le i)))

/-- Recursive presentation of the CTR loop, used to reason about it: process
the message 32 bytes at a time, xoring block `i` with its mask. -/
def ctrRec {F : Type} [Field F] (hmac : List F → List F → List F)
    (ek : List F) (i : Nat) : List F → List F
  | [] => []
  | x :: xs =>
    xorUnchecked ((x :: xs).take 32) (hmac ek (u64le i)) ++
      ctrRec hmac ek (i + 1) ((x :: xs).drop 32)
termination_by msg => msg.length
decreasing_by
  simp only [List.drop, List.length_drop, List.length_cons]
  omega

/-- Replace the aad field of a ciphertext, for stating the aad-tamper
property. -/
def swapAad {F : Type} (aad : Option (List F)) :
    CiphertextM F → CiphertextM F
  | .Hmac256Ctr blob _ mac => .Hmac256Ctr blob aad mac
  | c => c

/-- dem.ts `Hmac256Ctr.encrypt` given the already-derived DEM key: CTR
encryption plus the MAC over aad and ciphertext. -/
def hmacCtrEncrypt {F : Type} [Field F] (hmac : List F → List F → List F)
    (key plaintext aad : List F) : CiphertextM F :=
  .Hmac256Ctr (encryptInCtrMode hmac key plaintext) (some aad)
    (computeMac hmac key aad (encryptInCtrMode hmac key plaintext))

/-- dem.ts `Hmac256Ctr.decrypt`: fail with InvalidCiphertextError on a wrong
variant or a MAC mismatch, else run the CTR stream again. -/
def hmacCtrDecrypt {F : Type} [Field F] [DecidableEq F]
    (hmac : List F → List F → List F)
    (key : List F) (ct : CiphertextM F) : Except SealErr (List F) :=
  match ct with
  | .Hmac256Ctr blob aad mac =>
      if computeMac hmac key (aad.getD []) blob = mac then
        .ok (encryptInCtrMode hmac key blob)
      else .error .invalidCiphertext
  | _ => .error .invalidCiphertext

/-- dem.ts `AesGcm256.encrypt` with the WebCrypto AES-GCM-256 primitive
(fixed IV) abstracted as `aesEnc key plaintext aad`. -/
def aesGcmEncrypt {F : Type} [Field F] (aesEnc : List F → List F → List F → List F)
    (key plaintext aad : List F) : CiphertextM F :=
  .Aes256Gcm (aesEnc key plaintext aad) (some aad)

/-- dem.ts `AesGcm256.decrypt`: wrong variant is InvalidCiphertextError; a
WebCrypto tag failure (`aesDec` returning `none`) surfaces as a thrown
operation error, modelled as `plainError`. -/
def aesGcmDecrypt {F : Type} [Field F]
    (aesDec : List F → List F → List F → Option (List F))
    (key : List F) (ct : CiphertextM F) : Except SealErr (List F) :=
  match ct with
  | .Aes256Gcm blob aad =>
      match aesDec key blob (aad.getD []) with
      | some pt => .ok pt
      | none => .error .plainError
  | _ => .error .invalidCiphertext

/-- client.ts `#createEncryptionInput` composed with the chosen mode's
`encrypt`: dispatch on the DEM type. -/
def demEncrypt {F : Type} [Field F] (hmac : List F → List F → List F)
    (aesEnc : List F → List F → List F → List F)
    (demType : DemType) (key data aad : List F) : CiphertextM F :=
  match demType with
  | .AesGcm256 => aesGcmEncrypt aesEnc key data aad
  | .Hmac256Ctr => hmacCtrEncrypt hmac key data aad

/- ### IBE module (ibe.ts) -/

/-- The BLS12-381 surface used by the IBE scheme (bls12381.ts), abstracted:
scalars `S`, groups `G1`, `G2`, target group `GT`.  `gtToBytes` is the
576-byte GT serialization, `scalarToBytes` the 32-byte scalar encoding. -/
structure Curve (F S G1 G2 GT : Type) where
  g2gen : G2
  g1mul : G1 → S → G1
  g2mul : G2 → S → G2
  hashToG1 : List F → G1
  pairing : G1 → G2 → GT
  gtToBytes : GT → List F
  scalarToBytes : S → List F

/-- Result of a batched IBE encryption, bcs.ts `IBEEncryptions`
(BonehFranklinBLS12381 variant); the nonce is kept as a group element, its
96-byte encoding is the codec layer's concern. -/
structure IBEEnc (F G2 : Type) where
  nonce : G2
  encryptedShares : List (List F)
  encryptedRandomness : List F
deriving DecidableEq

/-- ibe.ts `encapBatched`: one shared random scalar `r` (passed in, the
source samples it), nonce `g2 * r`, and per-server key
`pairing(hashToG1(id) * r, pk)`.  Fails when no public key is given. -/
def encapBatched {F S G1 G2 GT : Type} (C : Curve F S G1 G2 GT)
    (r : S) (publicKeys : List G2) (id : List F) :
    Option (S × G2 × List GT) :=
  if publicKeys.length = 0 then none
  else
    some (r, C.g2mul C.g2gen r,
      publicKeys.map (fun pk => C.pairing (C.g1mul (C.hashToG1 id) r) pk))

/-- ibe.ts `BonehFranklinBLS12381Services.encryptBatched`: check the key
count, encapsulate, xor each message with the kdf of its key, and mask the
randomness key with the scalar bytes.  The checked xors propagate length
failures as `none`. -/
def encryptBatched {F S G1 G2 GT : Type} [Field F] (C : Curve F S G1 G2 GT)
    (hkdf : List F → List F → List F) (r : S) (publicKeys : List G2)
    (id : List F) (msgAndInfos : List (List F × List F))
    (randomnessKey : List F) : Option (IBEEnc F G2) :=
  if publicKeys.length = 0 ∨ publicKeys.length ≠ msgAndInfos.length then none
  else do
    let (r, nonce, keys) ← encapBatched C r publicKeys id
    let shares ← (msgAndInfos.zip keys).mapM
      (fun mk => xorB mk.1.1 (kdf hkdf (C.gtToBytes mk.2) mk.1.2))
    let er ← xorB randomnessKey (C.scalarToBytes r)
    some ⟨nonce, shares, er⟩

/-- ibe.ts `decap` followed by `BonehFranklinBLS12381Services.decrypt`:
`ciphertext xor kdf(pairing(usk, nonce), info)`. -/
def ibeDecrypt {F S G1 G2 GT : Type} [Field F] (C : Curve F S G1 G2 GT)
    (hkdf : List F → List F → List F) (nonce : G2) (sk : G1)
    (ciphertext info : List F) : Option (List F) :=
  xorB ciphertext (kdf hkdf (C.gtToBytes (C.pairing sk nonce)) info)

/- ### Threshold split and combine (encrypt.ts `split`, decrypt.ts `combine`) -/

/-- Horner evaluation of the polynomial with coefficient list `coeffs`
(constant term first) at `x`. -/
def hornerEval {F : Type} [Field F] (coeffs : List F) (x : F) : F :=
  coeffs.foldr (fun a acc => a + x * acc) 0

/-- Value of one Shamir share: per byte position, evaluate the degree
`t - 1` polynomial whose constant term is the secret byte and whose higher
coefficients are that byte position's entry of `coeffs`. -/
def evalShareAt {F : Type} [Field F] (secret : List F)
    (coeffs : List (List F)) (x : F) : List F :=
  List.zipWith (fun s c => hornerEval (s :: c) x) secret coeffs

/-- encrypt.ts `split`.  The source throws on `n = 0`, `t = 0` or `t > n`;
for `t = 1` it emits `n` copies of the secret with counter indices `0..n-1`.
Modelled from the spec: the `t >= 2` branch calls the external
`shamir-secret-sharing` package, specified as per-byte Shamir sharing over
GF(256) with x-coordinates `1..n` (the share index stored in the last byte);
the fresh random polynomial coefficients drawn by that package are the
explicit argument `coeffs` (one list of `t - 1` coefficients per byte). -/
def split {F : Type} [Field F] (secret : List F) (coeffs : List (List F))
    (n t : Nat) : Option (List (Nat × List F)) :=
  if n = 0 ∨ t = 0 ∨ t > n then none
  else if t = 1 then
    some ((List.range n).map (fun i => (i, secret)))
  else
    some ((List.range n).map
      (fun j => (j + 1, evalShareAt secret coeffs ((j + 1 : Nat) : F))))

/-- Share index tags produced by split: the counter 0..n-1 when t = 1, the
x-coordinates 1..n otherwise. -/
def usedIdx (t n : Nat) : List Nat :=
  if t = 1 then List.range n else (List.range n).map (· + 1)

/-- Lagrange interpolation at `x = 0` of the value points `pts`
(x-coordinate, y-value), written as the classical basis sum. -/
def lagrangeZero {F : Type} [Field F] [DecidableEq F]
    (pts : List (F × F)) : F :=
  ∑ j : Fin pts.length,
    (pts.get j).2 *
      ∏ i ∈ Finset.univ.erase j,
        ((pts.get j).1 - (pts.get i).1)⁻¹ * (0 - (pts.get i).1)

/-- Modelled from the spec: the external `shamir-secret-sharing` package's
`combine`, specified as per-byte Lagrange interpolation at `x = 0` over
GF(256), with each share's x-coordinate taken from its index byte. -/
def externalCombine {F : Type} [Field F] [DecidableEq F]
    (shares : List (Nat × List F)) : List F :=
  (List.range ((shares.headD (0, [])).2.length)).map
    (fun b => lagrangeZero (shares.map
      (fun sh => (((sh.1 : Nat) : F), sh.2.getD b 0))))

/-- decrypt.ts `combine`: no share is an error, a single share is returned
directly, otherwise the external Shamir combine runs. -/
def combine {F : Type} [Field F] [DecidableEq F]
    (shares : List (Nat × List F)) : Option (List F) :=
  match shares with
  | [] => none
  | [sh] => some sh.2
  | _ => some (externalCombine shares)

/- ### Encrypted object and the high-level encrypt / decrypt
(encrypt.ts `encrypt`, decrypt.ts `decrypt`) -/

/-- bcs.ts `EncryptedObject`, at the parsed level: server object ids are
abstract (`Nat`), and the IBE nonce is held as a group element (its byte
encoding is the wire codec's concern).  `services` pairs each server object
id with its share index. -/
structure EncObj (F G2 : Type) where
  version : Nat
  packageId : List F
  id : List F
  services : List (Nat × Nat)
  threshold : Nat
  encryptedShares : IBEEnc F G2
  ciphertext : CiphertextM F

/-- The key cache of client.ts: entries keyed by (full id, server object id)
holding a verified G1 partial key.  Lookup by structural key equality. -/
def cacheGet {F G1 : Type} [DecidableEq F]
    (keys : List ((List F × Nat) × G1)) (k : List F × Nat) : Option G1 :=
  (keys.find? (fun e => decide (e.1 = k))).map (·.2)

/-- encrypt.ts `encrypt`.  Randomness is explicit: `baseKey` is the freshly
generated symmetric key, `coeffs` the Shamir coefficients drawn inside the
external split, `r` the IBE scalar.  The validity check mirrors the source:
`keyServers.length < threshold`, `threshold === 0`, either count above 255,
or an invalid package id, all throw a `UserError`. -/
def encryptCore {F S G1 G2 GT : Type} [Field F]
    (C : Curve F S G1 G2 GT)
    (hmac : List F → List F → List F) (hkdf : List F → List F → List F)
    (aesEnc : List F → List F → List F → List F)
    (keyServers : List (Nat × G2)) (threshold : Nat)
    (packageId id : List F) (demType : DemType) (data aad : List F)
    (baseKey : List F) (coeffs : List (List F)) (r : S) :
    Except SealErr (EncObj F G2 × List F) :=
  if keyServers.length < threshold ∨ threshold = 0 ∨
      keyServers.length > 255 ∨ threshold > 255 ∨ packageId.length ≠ 32 then
    .error .userError
  else
    let demKey := deriveKey hmac .DEM baseKey
    let ciphertext := demEncrypt hmac aesEnc demType demKey data aad
    match split baseKey coeffs keyServers.length threshold with
    | none => .error .plainError
    | some shares =>
      match createFullId (DSTf F) packageId id with
      | none => .error .userError
      | some fullId =>
        match encryptBatched C hkdf r (keyServers.map (·.2)) fullId
            (shares.map (fun sh => (sh.2, [((sh.1 : Nat) : F)])))
            (deriveKey hmac .EncryptedRandomness baseKey) with
        | none => .error .plainError
        | some ibe =>
          .ok ({ version := 0, packageId := packageId, id := id,
                 services := List.zipWith
                   (fun sv sh => (sv.1, sh.1)) keyServers shares,
                 threshold := threshold,
                 encryptedShares := ibe, ciphertext := ciphertext },
               demKey)

/-- One share-recovery step of decrypt.ts `decrypt`: look up the cached key
of entry `i`, IBE-decrypt the corresponding encrypted share with the share
index as the kdf info byte, and pair the recovered share with its index. -/
def decryptShareStep {F S G1 G2 GT : Type} [Field F] [DecidableEq F]
    (C : Curve F S G1 G2 GT) (hkdf : List F → List F → List F)
    (keys : List ((List F × Nat) × G1)) (fullId : List F) (nonce : G2)
    (encShares : List (List F)) (services : List (Nat × Nat)) (i : Nat) :
    Option (Nat × List F) :=
  match cacheGet keys (fullId, (services.getD i (0, 0)).1) with
  | none => none
  | some sk =>
    (ibeDecrypt C hkdf nonce sk (encShares.getD i [])
      [(((services.getD i (0, 0)).2 : Nat) : F)]).map
      (fun share => ((services.getD i (0, 0)).2, share))

/-- decrypt.ts `decrypt`: find the service entries whose key is cached, fail
with a plain error when they are fewer than the threshold, fail with
InvalidCiphertextError when the share count does not match the service
count, IBE-decrypt each cached entry's share (the share index is the kdf
info byte), Shamir-combine, derive the DEM key and dispatch on the
ciphertext variant.  DEM failures are caught and rethrown as plain errors;
`Plain` returns the DEM key itself. -/
def decryptCore {F S G1 G2 GT : Type} [Field F] [DecidableEq F]
    (C : Curve F S G1 G2 GT)
    (hmac : List F → List F → List F) (hkdf : List F → List F → List F)
    (aesDec : List F → List F → List F → Option (List F))
    (eo : EncObj F G2) (keys : List ((List F × Nat) × G1)) :
    Except SealErr (List F) :=
  match createFullId (DSTf F) eo.packageId eo.id with
  | none => .error .userError
  | some fullId =>
    let inKeystore := (List.range eo.services.length).filter
      (fun i => (cacheGet keys (fullId, (eo.services.getD i (0, 0)).1)).isSome)
    if inKeystore.length < eo.threshold then .error .plainError
    else if eo.encryptedShares.encryptedShares.length ≠ eo.services.length then
      .error .invalidCiphertext
    else
      match inKeystore.mapM (decryptShareStep C hkdf keys fullId
          eo.encryptedShares.nonce eo.encryptedShares.encryptedShares
          eo.services) with
      | none => .error .plainError
      | some shares =>
        match combine shares with
        | none => .error .plainError
        | some key =>
          let demKey := deriveKey hmac .DEM key
          match eo.ciphertext with
          | .Aes256Gcm _ _ =>
            match aesGcmDecrypt aesDec demKey eo.ciphertext with
            | .ok pt => .ok pt
            | .error _ => .error .plainError
          | .Plain => .ok demKey
          | .Hmac256Ctr _ _ _ =>
            match hmacCtrDecrypt hmac demKey eo.ciphertext with
            | .ok pt => .ok pt
            | .error _ => .error .plainError

/- ### Client-side service reconciliation (client.ts) -/

/-- client.ts `#validateEncryptionServices`: count the client's configured
server object ids, count the envelope's service object ids, and require that
every id configured on the client occurs in the envelope exactly as often as
on the client, else InconsistentKeyServersError; then require the envelope
threshold to be at most the client's server count, else
InvalidThresholdError.  The source iterates the map of distinct client ids,
modelled by `dedup`. -/
def validateEncryptionServices {α : Type} [DecidableEq α]
    (clientIds : List α) (services : List α) (threshold : Nat) :
    Except SealErr Unit :=
  if clientIds.dedup.any (fun o => services.count o ≠ clientIds.count o) then
    .error .inconsistentKeyServers
  else if threshold > clientIds.length then
    .error .invalidThreshold
  else .ok ()

/- ### Session key (session-key.ts) -/

/-- session-key.ts `SessionKey.isExpired`: a 10 second clock skew is allowed;
times are millisecond timestamps. -/
def isExpired (creationTimeMs ttlMin now : Int) : Bool :=
  creationTimeMs + ttlMin * 60 * 1000 - 10000 < now

/-- ULEB128 encoding of a natural number (BCS length prefix). -/
def ulebEncode : Nat → List Nat
  | n =>
    if h : n < 128 then [n]
    else (n % 128 + 128) :: ulebEncode (n / 128)
decreasing_by exact Nat.div_lt_self (by omega) (by omega)

/-- session-key.ts `RequestFormat` BCS serialization: three u8 vectors, each
with a ULEB128 length prefix. -/
def requestFormatSerialize (ptb encKey encVerificationKey : List Nat) :
    List Nat :=
  ulebEncode ptb.length ++ ptb ++ ulebEncode encKey.length ++ encKey ++
    ulebEncode encVerificationKey.length ++ encVerificationKey

/-- Result of session-key.ts `createRequestParams`. -/
structure RequestParams (S Sig : Type) where
  decryptionKey : S
  requestSignature : Sig
deriving DecidableEq

/-- session-key.ts `SessionKey.createRequestParams`: fail with
ExpiredSessionKeyError when the session is expired; otherwise generate a
fresh ElGamal secret (the explicit argument `egSk`, the source samples it),
build the request message from the intent-stripped transaction bytes and the
ElGamal public and verification keys, and sign it with the ephemeral session
key (`sign`). -/
def createRequestParams {S Sig : Type}
    (toPub toVer : S → List Nat) (sign : List Nat → Sig)
    (creationTimeMs ttlMin now : Int) (egSk : S) (txBytes : List Nat) :
    Except SealErr (RequestParams S Sig) :=
  if isExpired creationTimeMs ttlMin now then .error .expiredSessionKey
  else
    .ok ⟨egSk, sign (requestFormatSerialize (txBytes.drop 1)
      (toPub egSk) (toVer egSk))⟩

/- ### Majority error aggregation (error.ts `toMajorityError`) -/

/-- error.ts `toMajorityError`: start with `maxCount = 0` and
`majorityError = errors[0]` (which is `undefined`, modelled as `none`, when
the list is empty), then count the errors by constructor name (`name`) and
keep the first error whose name count strictly exceeds the running maximum.
The counts map is an association list. -/
def toMajorityError {α β : Type} [DecidableEq β] (name : α → β)
    (errors : List α) : Option α :=
  (errors.foldl
    (fun st e =>
      let errorName := name e
      let newCount := ((st.2.2.lookup errorName).getD 0) + 1
      let counts := (errorName, newCount) :: st.2.2
      if newCount > st.1 then (newCount, some e, counts)
      else (st.1, st.2.1, counts))
    ((0 : Nat), errors.head?, ([] : List (β × Nat)))).2.1

/-- The tail of client.ts `fetchKeys`: after all fetch tasks settle, throw
the majority error when fewer servers than the threshold completed. -/
def fetchKeysOutcome {α β : Type} [DecidableEq β] (name : α → β)
    (completedServerCount threshold : Nat) (errors : List α) :
    Except (Option α) Unit :=
  if completedServerCount < threshold then .error (toMajorityError name errors)
  else .ok ()

/- ### Wire codec (bcs.ts `EncryptedObject` with the BCS encoding) -/

/-- Wire-level ciphertext variants. -/
inductive CiphertextW
  | Aes256Gcm (blob : List Nat) (aad : Option (List Nat))
  | Hmac256Ctr (blob : List Nat) (aad : Option (List Nat)) (mac : List Nat)
  | Plain
deriving DecidableEq

/-- Parsed wire-level encrypted object: all fields as raw bytes. -/
structure EncObjWire where
  version : Nat
  packageId : List Nat
  id : List Nat
  services : List (List Nat × Nat)
  threshold : Nat
  nonce : List Nat
  shares : List (List Nat)
  encryptedRandomness : List Nat
  ciphertext : CiphertextW
deriving DecidableEq

/-- Read one byte. -/
def readByte : List Nat → Option (Nat × List Nat)
  | [] => none
  | b :: rest => some (b, rest)

/-- Read exactly `n` bytes. -/
def readBytes (n : Nat) (l : List Nat) : Option (List Nat × List Nat) :=
  if n ≤ l.length then some (l.take n, l.drop n) else none

/-- Read a ULEB128-encoded length. -/
def readUleb : List Nat → Option (Nat × List Nat)
  | [] => none
  | b :: rest =>
    if b < 128 then some (b, rest)
    else (readUleb rest).map (fun vr => (b % 128 + 128 * vr.1, vr.2))

/-- Read `n` items with the item reader `f`. -/
def readItems {α : Type} (f : List Nat → Option (α × List Nat)) :
    Nat → List Nat → Option (List α × List Nat)
  | 0, l => some ([], l)
  | n + 1, l => do
    let (a, l) ← f l
    let (as_, l) ← readItems f n l
    some (a :: as_, l)

/-- Read a BCS vector: ULEB128 count then the items. -/
def readVector {α : Type} (f : List Nat → Option (α × List Nat))
    (l : List Nat) : Option (List α × List Nat) := do
  let (n, l) ← readUleb l
  readItems f n l

/-- Read a BCS option: a 0/1 tag byte then possibly the payload. -/
def readOpt {α : Type} (f : List Nat → Option (α × List Nat))
    (l : List Nat) : Option (Option α × List Nat) := do
  let (t, l) ← readByte l
  match t with
  | 0 => some (none, l)
  | 1 => (f l).map (fun ar => (some ar.1, ar.2))
  | _ => none

/-- Read one `(address, u8)` service entry. -/
def readService (l : List Nat) : Option ((List Nat × Nat) × List Nat) := do
  let (addr, l) ← readBytes 32 l
  let (idx, l) ← readByte l
  some ((addr, idx), l)

/-- Read the wire ciphertext: a ULEB128 enum tag then the variant body
(Aes256Gcm = 0, Hmac256Ctr = 1, Plain = 2), as laid out in bcs.ts. -/
def readCiphertext (l : List Nat) : Option (CiphertextW × List Nat) := do
  let (tag, l) ← readUleb l
  match tag with
  | 0 => do
    let (blob, l) ← readVector readByte l
    let (aad, l) ← readOpt (readVector readByte) l
    some (.Aes256Gcm blob aad, l)
  | 1 => do
    let (blob, l) ← readVector readByte l
    let (aad, l) ← readOpt (readVector readByte) l
    let (mac, l) ← readBytes 32 l
    some (.Hmac256Ctr blob aad mac, l)
  | 2 => some (.Plain, l)
  | _ => none

/-- bcs.ts `EncryptedObject.parse`: decode the fields in declaration order.
BCS decoding is purely structural; it performs no cross-field validation. -/
def parseEncryptedObject (l : List Nat) : Option (EncObjWire × List Nat) := do
  let (version, l) ← readByte l
  let (packageId, l) ← readBytes 32 l
  let (id, l) ← readVector readByte l
  let (services, l) ← readVector readService l
  let (threshold, l) ← readByte l
  let (ibeTag, l) ← readUleb l
  match ibeTag with
  | 0 => do
    let (nonce, l) ← readBytes 96 l
    let (shares, l) ← readVector (readBytes 32) l
    let (encryptedRandomness, l) ← readBytes 32 l
    let (ciphertext, l) ← readCiphertext l
    some ({ version := version, packageId := packageId, id := id,
            services := services, threshold := threshold, nonce := nonce,
            shares := shares, encryptedRandomness := encryptedRandomness,
            ciphertext := ciphertext }, l)
  | _ => none

/-- Concrete envelope bytes violating the length and threshold invariants:
version 0, zero package id, empty inner id, one service entry, threshold 0,
BonehFranklin variant with zero nonce, an empty share vector and zero
randomness, and a Plain ciphertext. -/
def c4bytes : List Nat :=
  [0] ++ List.replicate 32 0 ++ [0] ++
    ([1] ++ (List.replicate 32 0 ++ [1])) ++ [0] ++
    ([0] ++ List.replicate 96 0 ++ [0] ++ List.replicate 32 0) ++ [2]

/- ## Theorems -/

/- ### KDF block permutation -/

theorem setSlice_block {F : Type} [Field F] (p mid q seg : List F) (off : Nat)
    (hoff : off = p.length) (hm : mid.length = seg.length) :
    setSlice (p ++ (mid ++ q)) off seg = p ++ (seg ++ q) := by
  subst hoff
  unfold setSlice
  rw [List.take_left, List.append_assoc]
  congr 1
  congr 1
  rw [← hm, ← List.length_append p mid, ← List.append_assoc, List.drop_left]

theorem blockOf_length {F : Type} [Field F] (bytes : List F) (i : Nat)
    (hl : bytes.length = 576) (hi : i < 6) : (blockOf bytes i).length = 96 := by
  simp only [blockOf, List.length_take, List.length_drop, hl]
  omega

theorem setSlice_zero {F : Type} [Field F] (mid q seg : List F)
    (hm : mid.length = seg.length) :
    setSlice (mid ++ q) 0 seg = seg ++ q := by
  unfold setSlice
  simp only [List.take_zero, List.nil_append, Nat.zero_add]
  congr 1
  rw [← hm, List.drop_left]

/-- C6 core: the mutation loop of kdf.ts realizes the block ordering
0, 3, 1, 4, 2, 5 on a 576-byte input. -/
theorem permuteGT_eq_spec {F : Type} [Field F] (bytes : List F)
    (hl : bytes.length = 576) : permuteGT bytes = permuteGTSpec bytes := by
  have hb : ∀ i, i < 6 → (blockOf bytes i).length = 96 :=
    fun i hi => blockOf_length bytes i hl hi
  have h0 := hb 0 (by omega)
  have h1 := hb 1 (by omega)
  have h2 := hb 2 (by omega)
  have h3 := hb 3 (by omega)
  have h4 := hb 4 (by omega)
  have h5 := hb 5 (by omega)
  have hZ : (List.replicate 96 (0 : F)).length = 96 := by simp
  have hZ6 : List.replicate 576 (0 : F) =
      List.replicate 96 (0 : F) ++ (List.replicate 96 (0 : F) ++
        (List.replicate 96 (0 : F) ++ (List.replicate 96 (0 : F) ++
          (List.replicate 96 (0 : F) ++ List.replicate 96 (0 : F))))) := by
    simp only [← List.replicate_add]
  have hunf : permuteGT bytes =
      setSlice (setSlice (setSlice (setSlice (setSlice (setSlice
        (List.replicate 576 (0 : F)) 0 (blockOf bytes 0)) 192 (blockOf bytes 1))
          384 (blockOf bytes 2)) 96 (blockOf bytes 3)) 288 (blockOf bytes 4))
            480 (blockOf bytes 5) := rfl
  rw [hunf, hZ6]
  set Z := List.replicate 96 (0 : F) with hZdef
  set b0 := blockOf bytes 0
  set b1 := blockOf bytes 1
  set b2 := blockOf bytes 2
  set b3 := blockOf bytes 3
  set b4 := blockOf bytes 4
  set b5 := blockOf bytes 5
  rw [setSlice_zero Z (Z ++ (Z ++ (Z ++ (Z ++ Z)))) b0 (by rw [hZ, h0])]
  rw [show b0 ++ (Z ++ (Z ++ (Z ++ (Z ++ Z)))) =
        (b0 ++ Z) ++ (Z ++ (Z ++ (Z ++ Z))) from by simp [List.append_assoc]]
  rw [setSlice_block (b0 ++ Z) Z (Z ++ (Z ++ Z)) b1 192
    (by simp [h0, hZ]) (by rw [hZ, h1])]
  rw [show (b0 ++ Z) ++ (b1 ++ (Z ++ (Z ++ Z))) =
        ((b0 ++ Z) ++ (b1 ++ Z)) ++ (Z ++ Z) from by simp [List.append_assoc]]
  rw [setSlice_block ((b0 ++ Z) ++ (b1 ++ Z)) Z Z b2 384
    (by simp [h0, h1, hZ]) (by rw [hZ, h2])]
  rw [show ((b0 ++ Z) ++ (b1 ++ Z)) ++ (b2 ++ Z) =
        b0 ++ (Z ++ (b1 ++ (Z ++ (b2 ++ Z)))) from by simp [List.append_assoc]]
  rw [setSlice_block b0 Z (b1 ++ (Z ++ (b2 ++ Z))) b3 96
    (by rw [h0]) (by rw [hZ, h3])]
  rw [show b0 ++ (b3 ++ (b1 ++ (Z ++ (b2 ++ Z)))) =
        ((b0 ++ b3) ++ b1) ++ (Z ++ (b2 ++ Z)) from by simp [List.append_assoc]]
  rw [setSlice_block ((b0 ++ b3) ++ b1) Z (b2 ++ Z) b4 288
    (by simp [h0, h1, h3]) (by rw [hZ, h4])]
  rw [show ((b0 ++ b3) ++ b1) ++ (b4 ++ (b2 ++ Z)) =
        ((((b0 ++ b3) ++ b1) ++ b4) ++ b2) ++ (Z ++ []) from by
          simp [List.append_assoc]]
  rw [setSlice_block ((((b0 ++ b3) ++ b1) ++ b4) ++ b2) Z [] b5 480
    (by simp [h0, h1, h2, h3, h4]) (by rw [hZ, h5])]
  simp [permuteGTSpec, List.append_assoc]

theorem blockOf_concat6 {F : Type} [Field F] (c0 c1 c2 c3 c4 c5 : List F)
    (l0 : c0.length = 96) (l1 : c1.length = 96) (l2 : c2.length = 96)
    (l3 : c3.length = 96) (l4 : c4.length = 96) (l5 : c5.length = 96) :
    blockOf (c0 ++ c1 ++ c2 ++ c3 ++ c4 ++ c5) 0 = c0 ∧
    blockOf (c0 ++ c1 ++ c2 ++ c3 ++ c4 ++ c5) 1 = c1 ∧
    blockOf (c0 ++ c1 ++ c2 ++ c3 ++ c4 ++ c5) 2 = c2 ∧
    blockOf (c0 ++ c1 ++ c2 ++ c3 ++ c4 ++ c5) 3 = c3 ∧
    blockOf (c0 ++ c1 ++ c2 ++ c3 ++ c4 ++ c5) 4 = c4 ∧
    blockOf (c0 ++ c1 ++ c2 ++ c3 ++ c4 ++ c5) 5 = c5 := by
  refine ⟨?_, ?_, ?_, ?_, ?_, ?_⟩
  · show ((c0 ++ c1 ++ c2 ++ c3 ++ c4 ++ c5).drop (0 * 96)).take 96 = c0
    rw [show (0 * 96 : Nat) = 0 from rfl, List.drop_zero,
      show c0 ++ c1 ++ c2 ++ c3 ++ c4 ++ c5 =
        c0 ++ (c1 ++ (c2 ++ (c3 ++ (c4 ++ c5)))) from by simp [List.append_assoc],
      List.take_left' l0]
  · show ((c0 ++ c1 ++ c2 ++ c3 ++ c4 ++ c5).drop (1 * 96)).take 96 = c1
    rw [show (1 * 96 : Nat) = 96 from rfl,
      show c0 ++ c1 ++ c2 ++ c3 ++ c4 ++ c5 =
        c0 ++ (c1 ++ (c2 ++ (c3 ++ (c4 ++ c5)))) from by simp [List.append_assoc],
      List.drop_left' l0, List.take_left' l1]
  · show ((c0 ++ c1 ++ c2 ++ c3 ++ c4 ++ c5).drop (2 * 96)).take 96 = c2
    rw [show (2 * 96 : Nat) = 192 from rfl,
      show c0 ++ c1 ++ c2 ++ c3 ++ c4 ++ c5 =
        (c0 ++ c1) ++ (c2 ++ (c3 ++ (c4 ++ c5))) from by simp [List.append_assoc],
      List.drop_left' (by simp [l0, l1]), List.take_left' l2]
  · show ((c0 ++ c1 ++ c2 ++ c3 ++ c4 ++ c5).drop (3 * 96)).take 96 = c3
    rw [show (3 * 96 : Nat) = 288 from rfl,
      show c0 ++ c1 ++ c2 ++ c3 ++ c4 ++ c5 =
        (c0 ++ c1 ++ c2) ++ (c3 ++ (c4 ++ c5)) from by simp [List.append_assoc],
      List.drop_left' (by simp [l0, l1, l2]), List.take_left' l3]
  · show ((c0 ++ c1 ++ c2 ++ c3 ++ c4 ++ c5).drop (4 * 96)).take 96 = c4
    rw [show (4 * 96 : Nat) = 384 from rfl,
      show c0 ++ c1 ++ c2 ++ c3 ++ c4 ++ c5 =
        (c0 ++ c1 ++ c2 ++ c3) ++ (c4 ++ c5) from by simp [List.append_assoc],
      List.drop_left' (by simp [l0, l1, l2, l3]), List.take_left' l4]
  · show ((c0 ++ c1 ++ c2 ++ c3 ++ c4 ++ c5).drop (5 * 96)).take 96 = c5
    rw [show (5 * 96 : Nat) = 480 from rfl,
      show c0 ++ c1 ++ c2 ++ c3 ++ c4 ++ c5 =
        (c0 ++ c1 ++ c2 ++ c3 ++ c4) ++ c5 from by simp [List.append_assoc],
      List.drop_left' (by simp [l0, l1, l2, l3, l4]),
      List.take_eq_self_iff c5 |>.mpr (by omega)]

/-- C6: kdf permutes the six 96-byte coefficient blocks of the serialized
GT element, sending input block i to output position PERMUTATION[i], and
returns the HKDF of the permuted bytes with the given info. -/
theorem kdf_block_permutation {F : Type} [Field F]
    (hkdf : List F → List F → List F) (gtBytes info : List F)
    (hl : gtBytes.length = 576) :
    kdf hkdf gtBytes info = hkdf (permuteGTSpec gtBytes) info ∧
    (∀ i, i < 6 → (blockOf gtBytes i).length = 96 ∧
      blockOf (permuteGT gtBytes) (PERM.getD i 0) = blockOf gtBytes i) := by
  have hperm := permuteGT_eq_spec gtBytes hl
  have hb : ∀ i, i < 6 → (blockOf gtBytes i).length = 96 :=
    fun i hi => blockOf_length gtBytes i hl hi
  have hc := blockOf_concat6 (blockOf gtBytes 0) (blockOf gtBytes 3)
    (blockOf gtBytes 1) (blockOf gtBytes 4) (blockOf gtBytes 2)
    (blockOf gtBytes 5) (hb 0 (by omega)) (hb 3 (by omega)) (hb 1 (by omega))
    (hb 4 (by omega)) (hb 2 (by omega)) (hb 5 (by omega))
  refine ⟨by rw [kdf, hperm], ?_⟩
  intro i hi
  refine ⟨hb i hi, ?_⟩
  rw [hperm]
  interval_cases i
  · exact hc.1
  · exact hc.2.2.1
  · exact hc.2.2.2.2.1
  · exact hc.2.1
  · exact hc.2.2.2.1
  · exact hc.2.2.2.2.2

/- ### Majority error on an empty error list -/

/-- C10: on an empty error list `toMajorityError` returns `errors[0]`, which
is `undefined` (`none`); consequently a `fetchKeys` run in which every
request succeeded but fewer than `threshold` servers returned keys for all
requested ids (an empty errors buffer with `completedServerCount = 0` and
`threshold = 1`) throws `undefined`. -/
theorem toMajorityError_empty_undefined :
    toMajorityError (fun e : SealErr => e) [] = none ∧
    fetchKeysOutcome (fun e : SealErr => e) 0 1 [] = Except.error none :=
  ⟨rfl, rfl⟩

/- ### Session key expiry -/

/-- C9: `createRequestParams` fails with ExpiredSessionKeyError exactly when
the current time exceeds `creationTimeMs + ttlMin * 60000 - 10000` (the 10
second skew allowance), and otherwise returns the fresh ElGamal secret key
and the session-key signature over the request message. -/
theorem createRequestParams_expiry {S Sig : Type}
    (toPub toVer : S → List Nat) (sign : List Nat → Sig)
    (creationTimeMs ttlMin now : Int) (egSk : S) (txBytes : List Nat) :
    (createRequestParams toPub toVer sign creationTimeMs ttlMin now egSk
        txBytes = .error .expiredSessionKey ↔
      creationTimeMs + ttlMin * 60000 - 10000 < now) ∧
    (¬ creationTimeMs + ttlMin * 60000 - 10000 < now →
      createRequestParams toPub toVer sign creationTimeMs ttlMin now egSk
          txBytes =
        .ok ⟨egSk, sign (requestFormatSerialize (txBytes.drop 1)
          (toPub egSk) (toVer egSk))⟩) := by
  have he : isExpired creationTimeMs ttlMin now = true ↔
      creationTimeMs + ttlMin * 60000 - 10000 < now := by
    simp only [isExpired, decide_eq_true_eq]
    constructor <;> intro h <;> linarith
  constructor
  · constructor
    · intro h
      by_contra hc
      rw [createRequestParams, if_neg (by simpa [he] using hc)] at h
      exact Except.noConfusion h
    · intro h
      rw [createRequestParams, if_pos (he.mpr h)]
  · intro h
    rw [createRequestParams, if_neg (by simpa [he] using h)]

/- ### Service reconciliation -/

/-- C8: decrypt on the client fails with InconsistentKeyServers exactly when
some object id configured on the client occurs a different number of times
among the envelope's services; ids occurring only in the envelope impose no
constraint; and when the multisets reconcile, it fails with InvalidThreshold
exactly when the envelope threshold exceeds the client's server count. -/
theorem validateEncryptionServices_spec {α : Type} [DecidableEq α]
    (clientIds services : List α) (threshold : Nat) :
    (validateEncryptionServices clientIds services threshold =
        .error .inconsistentKeyServers ↔
      ∃ o ∈ clientIds, services.count o ≠ clientIds.count o) ∧
    ((¬ ∃ o ∈ clientIds, services.count o ≠ clientIds.count o) →
      (validateEncryptionServices clientIds services threshold =
          .error .invalidThreshold ↔ threshold > clientIds.length)) ∧
    ((¬ ∃ o ∈ clientIds, services.count o ≠ clientIds.count o) ∧
        threshold ≤ clientIds.length →
      validateEncryptionServices clientIds services threshold = .ok ()) := by
  have hany : clientIds.dedup.any
        (fun o => decide (services.count o ≠ clientIds.count o)) = true ↔
      ∃ o ∈ clientIds, services.count o ≠ clientIds.count o := by
    simp [List.any_eq_true, List.mem_dedup]
  refine ⟨?_, ?_, ?_⟩
  · constructor
    · intro h
      by_contra hc
      rw [validateEncryptionServices, if_neg (by simpa [hany] using hc)] at h
      split at h <;> simp_all
    · intro h
      rw [validateEncryptionServices, if_pos (hany.mpr h)]
  · intro hcons
    constructor
    · intro h
      by_contra hc
      rw [validateEncryptionServices,
        if_neg (by simpa [hany] using hcons), if_neg (by omega)] at h
      exact Except.noConfusion h
    · intro h
      rw [validateEncryptionServices,
        if_neg (by simpa [hany] using hcons), if_pos h]
  · intro ⟨hcons, hth⟩
    rw [validateEncryptionServices,
      if_neg (by simpa [hany] using hcons), if_neg (by omega)]

/- ### Degenerate split (threshold 1) -/

/-- C3 counterexample: with two servers and threshold 1, split tags the two
copies of the secret with indices 0 and 1, not 1 and 2 as the claim states.
The secret here is the one-byte string [1] over GF(2). -/
theorem split_t1_counterexample :
    (split (F := ZMod 2) [1] [] 2 1).map (fun shs => shs.map Prod.fst) =
        some [0, 1] ∧
    some [0, 1] ≠ some ([1, 2] : List Nat) := ⟨by decide, by decide⟩

/-- C3 amended: for n at least 1, split(secret, n, 1) returns n entries whose
share value is the secret itself and whose index tags are exactly 0..n-1,
each index distinct. -/
theorem split_t1_spec {F : Type} [Field F] (secret : List F)
    (coeffs : List (List F)) (n : Nat) (hn : 1 ≤ n) :
    split secret coeffs n 1 =
      some ((List.range n).map (fun i => (i, secret))) ∧
    ((List.range n).map (fun i => ((i, secret) : Nat × List F))).map Prod.fst =
      List.range n ∧
    (List.range n).Nodup := by
  refine ⟨?_, by simp [Function.comp_def], List.nodup_range n⟩
  rw [split, if_neg (by omega), if_pos rfl]

/- ### Envelope parsing performs no invariant checks -/

set_option maxRecDepth 8000 in
/-- C4 counterexample: a concrete envelope byte string whose decoded fields
have one service entry, zero encrypted shares and threshold 0 parses
successfully, consuming all input, instead of failing with InvalidCiphertext
at parse time. -/
theorem parse_no_invariant_check :
    (parseEncryptedObject c4bytes).map (fun pr =>
      (pr.1.threshold, pr.1.services.length, pr.1.shares.length, pr.2)) =
      some (0, 1, 0, []) := by decide

/-- C4 amended: BCS parsing performs no cross-field validation; the
|services| vs |encryptedShares| mismatch is detected inside decrypt, which
fails with InvalidCiphertextError once the cached-key threshold check has
passed; the threshold bound against |services| is not checked at all. -/
theorem decrypt_length_mismatch {F S G1 G2 GT : Type} [Field F]
    [DecidableEq F] (C : Curve F S G1 G2 GT)
    (hmac hkdf : List F → List F → List F)
    (aesDec : List F → List F → List F → Option (List F))
    (eo : EncObj F G2) (keys : List ((List F × Nat) × G1))
    (hpk : eo.packageId.length = 32)
    (hthr : eo.threshold ≤ ((List.range eo.services.length).filter
      (fun i => (cacheGet keys
        (fullIdOf eo.packageId eo.id, (eo.services.getD i (0, 0)).1)).isSome)).length)
    (hmis : eo.encryptedShares.encryptedShares.length ≠ eo.services.length) :
    decryptCore C hmac hkdf aesDec eo keys = .error .invalidCiphertext := by
  have hfid : createFullId (DSTf F) eo.packageId eo.id =
      some (fullIdOf eo.packageId eo.id) := by
    rw [createFullId, if_pos hpk]; rfl
  simp only [decryptCore, hfid]
  rw [if_neg (by omega), if_pos hmis]

/- ### Hmac256Ctr authenticated encryption -/

theorem xorUnchecked_cancel {F : Type} [Field F] (hchar : ∀ x : F, x + x = 0)
    (a b : List F) (hab : a.length ≤ b.length) :
    xorUnchecked (xorUnchecked a b) b = a := by
  induction a generalizing b with
  | nil => simp [xorUnchecked]
  | cons x xs ih =>
    cases b with
    | nil => simp at hab
    | cons y ys =>
      simp only [xorUnchecked, List.zipWith_cons_cons]
      rw [add_assoc, hchar y, add_zero]
      exact congrArg (List.cons x) (ih ys (by simpa using hab))

theorem xorUnchecked_length {F : Type} [Field F] (a b : List F) :
    (xorUnchecked a b).length = min a.length b.length := by
  simp [xorUnchecked]

theorem ctrRec_nil {F : Type} [Field F] (hmac : List F → List F → List F)
    (ek : List F) (i : Nat) : ctrRec hmac ek i ([] : List F) = [] := by
  simp [ctrRec]

theorem ctrRec_cons {F : Type} [Field F] (hmac : List F → List F → List F)
    (ek : List F) (i : Nat) (x : F) (xs : List F) :
    ctrRec hmac ek i (x :: xs) =
      xorUnchecked ((x :: xs).take 32) (hmac ek (u64le i)) ++
        ctrRec hmac ek (i + 1) ((x :: xs).drop 32) := by
  rw [ctrRec]

theorem ctrRec_ne_nil {F : Type} [Field F] (hmac : List F → List F → List F)
    (ek : List F) (i : Nat) (msg : List F) (hm : msg ≠ []) :
    ctrRec hmac ek i msg =
      xorUnchecked (msg.take 32) (hmac ek (u64le i)) ++
        ctrRec hmac ek (i + 1) (msg.drop 32) := by
  cases msg with
  | nil => exact absurd rfl hm
  | cons x xs => exact ctrRec_cons hmac ek i x xs

theorem encryptInCtrMode_eq_ctrRec {F : Type} [Field F]
    (hmac : List F → List F → List F) (key msg : List F) :
    encryptInCtrMode hmac key msg = ctrRec hmac (hmac key [(1 : F)]) 0 msg := by
  suffices h : ∀ N msg, msg.length ≤ N → ∀ c : Nat,
      (List.range (numBlocks msg.length)).flatMap
        (fun i => xorUnchecked ((msg.drop (i * 32)).take 32)
          (hmac (hmac key [(1 : F)]) (u64le (c + i)))) =
      ctrRec hmac (hmac key [(1 : F)]) c msg by
    have := h msg.length msg le_rfl 0
    simpa [encryptInCtrMode] using this
  intro N
  induction N with
  | zero =>
    intro msg hN c
    have : msg = [] := List.length_eq_zero.mp (by omega)
    subst this
    simp [numBlocks, ctrRec_nil]
  | succ N ih =>
    intro msg hN c
    cases msg with
    | nil => simp [numBlocks, ctrRec_nil]
    | cons x xs =>
      have hnb : numBlocks (x :: xs).length =
          numBlocks ((x :: xs).drop 32).length + 1 := by
        simp only [numBlocks, List.length_drop, List.length_cons]
        omega
      rw [hnb, List.range_succ_eq_map]
      show xorUnchecked (((x :: xs).drop (0 * 32)).take 32)
          (hmac (hmac key [(1 : F)]) (u64le (c + 0))) ++
        (((List.range (numBlocks ((x :: xs).drop 32).length)).map
          Nat.succ).flatMap _) = _
      rw [List.flatMap_map]
      have hfun : (fun i =>
          xorUnchecked (((x :: xs).drop (Nat.succ i * 32)).take 32)
            (hmac (hmac key [(1 : F)]) (u64le (c + Nat.succ i)))) =
          (fun i =>
          xorUnchecked ((((x :: xs).drop 32).drop (i * 32)).take 32)
            (hmac (hmac key [(1 : F)]) (u64le ((c + 1) + i)))) := by
        funext i
        rw [List.drop_drop, show 32 + i * 32 = Nat.succ i * 32 by omega,
          show c + Nat.succ i = (c + 1) + i by omega]
      rw [hfun, ih ((x :: xs).drop 32) (by
        simp only [List.length_drop, List.length_cons]
        simp only [List.length_cons] at hN
        omega) (c + 1), ctrRec_cons]
      simp

theorem ctrRec_length {F : Type} [Field F] (hmac : List F → List F → List F)
    (hhm : ∀ k m, (hmac k m).length = 32) (ek : List F) :
    ∀ N msg, msg.length ≤ N → ∀ i : Nat,
      (ctrRec hmac ek i msg).length = msg.length := by
  intro N
  induction N with
  | zero =>
    intro msg hN i
    have : msg = [] := List.length_eq_zero.mp (by omega)
    subst this
    simp [ctrRec_nil]
  | succ N ih =>
    intro msg hN i
    cases msg with
    | nil => simp [ctrRec_nil]
    | cons x xs =>
      rw [ctrRec_cons]
      simp only [List.length_append, xorUnchecked_length, List.length_take,
        hhm, List.length_cons, List.length_drop,
        ih ((x :: xs).drop 32) (by
          simp only [List.length_drop, List.length_cons]
          simp only [List.length_cons] at hN
          omega) (i + 1)]
      omega

theorem ctrRec_involution {F : Type} [Field F]
    (hmac : List F → List F → List F) (hchar : ∀ x : F, x + x = 0)
    (hhm : ∀ k m, (hmac k m).length = 32) (ek : List F) :
    ∀ N msg, msg.length ≤ N → ∀ i : Nat,
      ctrRec hmac ek i (ctrRec hmac ek i msg) = msg := by
  intro N
  induction N with
  | zero =>
    intro msg hN i
    have : msg = [] := List.length_eq_zero.mp (by omega)
    subst this
    simp [ctrRec_nil]
  | succ N ih =>
    intro msg hN i
    by_cases hnil : msg = []
    · subst hnil
      simp [ctrRec_nil]
    · have hlen1 : 1 ≤ msg.length := List.length_pos.mpr hnil
      have hmask : (hmac ek (u64le i)).length = 32 := hhm _ _
      have hchunklen : (xorUnchecked (msg.take 32) (hmac ek (u64le i))).length
          = min 32 msg.length := by
        rw [xorUnchecked_length, List.length_take, hmask]
        omega
      rw [ctrRec_ne_nil hmac ek i msg hnil]
      by_cases h32 : 32 ≤ msg.length
      · have hchunk32 : (xorUnchecked (msg.take 32)
            (hmac ek (u64le i))).length = 32 := by omega
        rw [ctrRec_ne_nil hmac ek i _ (by
          intro h0
          rw [(List.append_eq_nil.mp h0).1] at hchunk32
          simp at hchunk32)]
        rw [List.take_left' hchunk32, List.drop_left' hchunk32]
        rw [xorUnchecked_cancel hchar _ _
          (by rw [List.length_take, hmask]; omega)]
        rw [ih (msg.drop 32) (by simp only [List.length_drop]; omega) (i + 1)]
        exact List.take_append_drop 32 msg
      · have hdropnil : msg.drop 32 = [] :=
          List.drop_eq_nil_of_le (by omega)
        rw [hdropnil, ctrRec_nil, List.append_nil]
        have hchunkne : xorUnchecked (msg.take 32) (hmac ek (u64le i)) ≠ [] := by
          intro h0
          rw [h0] at hchunklen
          simp only [List.length_nil] at hchunklen
          omega
        rw [ctrRec_ne_nil hmac ek i _ hchunkne]
        have htake : (xorUnchecked (msg.take 32) (hmac ek (u64le i))).take 32 =
            xorUnchecked (msg.take 32) (hmac ek (u64le i)) :=
          List.take_eq_self_iff _ |>.mpr (by omega)
        have hdrop : (xorUnchecked (msg.take 32) (hmac ek (u64le i))).drop 32 =
            [] := List.drop_eq_nil_of_le (by omega)
        rw [htake, hdrop, ctrRec_nil, List.append_nil]
        have hmtake : msg.take 32 = msg :=
          List.take_eq_self_iff _ |>.mpr (by omega)
        rw [hmtake]
        exact xorUnchecked_cancel hchar msg _ (by rw [hmask]; omega)

theorem encryptInCtrMode_involution {F : Type} [Field F]
    (hmac : List F → List F → List F) (hchar : ∀ x : F, x + x = 0)
    (hhm : ∀ k m, (hmac k m).length = 32) (key msg : List F) :
    encryptInCtrMode hmac key (encryptInCtrMode hmac key msg) = msg := by
  rw [encryptInCtrMode_eq_ctrRec, encryptInCtrMode_eq_ctrRec]
  exact ctrRec_involution hmac hchar hhm _ _ msg le_rfl 0

/-- C5: Hmac256Ctr decryption of an encryption returns the plaintext, and
decrypting the same ciphertext with the aad replaced by a different aad
fails with InvalidCiphertextError, provided HMAC-SHA3-256 does not collide
on the two distinct mac inputs. -/
theorem hmacCtr_roundtrip_aad_tamper {F : Type} [Field F] [DecidableEq F]
    (hmac : List F → List F → List F) (hchar : ∀ x : F, x + x = 0)
    (hhm : ∀ k m, (hmac k m).length = 32) (key m aad aad2 : List F)
    (hne : aad2 ≠ aad)
    (hcol : computeMac hmac key aad2 (encryptInCtrMode hmac key m) ≠
      computeMac hmac key aad (encryptInCtrMode hmac key m)) :
    hmacCtrDecrypt hmac key (hmacCtrEncrypt hmac key m aad) = .ok m ∧
    hmacCtrDecrypt hmac key
        (swapAad (some aad2) (hmacCtrEncrypt hmac key m aad)) =
      .error .invalidCiphertext := by
  constructor
  · rw [hmacCtrEncrypt, hmacCtrDecrypt]
    simp only [Option.getD_some, if_true]
    rw [encryptInCtrMode_involution hmac hchar hhm]
  · rw [hmacCtrEncrypt, swapAad, hmacCtrDecrypt]
    simp only [Option.getD_some]
    rw [if_neg hcol]

/- ### Batched IBE encapsulation -/

theorem mapM_option_spec {α β : Type} (f : α → Option β) :
    ∀ l : List α, (∀ a ∈ l, (f a).isSome) →
      ∃ bs, l.mapM f = some bs ∧ bs.length = l.length ∧
        ∀ i : Nat, bs[i]? = (l[i]?).bind f := by
  intro l
  induction l with
  | nil => exact fun _ => ⟨[], rfl, rfl, fun i => by simp⟩
  | cons a t ih =>
    intro h
    obtain ⟨b, hb⟩ := Option.isSome_iff_exists.mp (h a (by simp))
    obtain ⟨bs, hbs, hlen, hget⟩ := ih (fun x hx => h x (by simp [hx]))
    refine ⟨b :: bs, ?_, by simp [hlen], ?_⟩
    · rw [List.mapM_cons, hb, hbs]
      rfl
    · intro i
      cases i with
      | zero => simp [hb]
      | succ n => simpa using hget n

theorem zip_getElem? {α β : Type} :
    ∀ (l1 : List α) (l2 : List β) (i : Nat) (a : α) (b : β),
      l1[i]? = some a → l2[i]? = some b → (l1.zip l2)[i]? = some (a, b) := by
  intro l1
  induction l1 with
  | nil => intro l2 i a b h1; simp at h1
  | cons x xs ih =>
    intro l2 i a b h1 h2
    cases l2 with
    | nil => simp at h2
    | cons y ys =>
      cases i with
      | zero =>
        simp only [List.getElem?_cons_zero, Option.some_inj] at h1 h2
        simp [List.zip_cons_cons, h1, h2]
      | succ n =>
        simp only [List.getElem?_cons_succ] at h1 h2
        simpa [List.zip_cons_cons] using ih ys n a b h1 h2

theorem encryptBatched_unfold {F S G1 G2 GT : Type} [Field F]
    (C : Curve F S G1 G2 GT) (hkdf : List F → List F → List F) (r : S)
    (publicKeys : List G2) (id : List F)
    (msgAndInfos : List (List F × List F)) (randomnessKey : List F)
    (h0 : publicKeys.length ≠ 0)
    (hlen : publicKeys.length = msgAndInfos.length) :
    encryptBatched C hkdf r publicKeys id msgAndInfos randomnessKey =
      (((msgAndInfos.zip (publicKeys.map
          (fun pk => C.pairing (C.g1mul (C.hashToG1 id) r) pk))).mapM
        (fun mk => xorB mk.1.1 (kdf hkdf (C.gtToBytes mk.2) mk.1.2))).bind
        fun shares => (xorB randomnessKey (C.scalarToBytes r)).bind
          fun er => some ⟨C.g2mul C.g2gen r, shares, er⟩) := by
  rw [encryptBatched, if_neg (by tauto), encapBatched, if_neg h0]
  rfl

/-- Shared characterization of encryptBatched, used both by the batched
encryption claim and by the end-to-end round trip. -/
theorem encryptBatched_props {F S G1 G2 GT : Type} [Field F]
    (C : Curve F S G1 G2 GT) (hkdf : List F → List F → List F) (r : S)
    (publicKeys : List G2) (id : List F)
    (msgAndInfos : List (List F × List F)) (randomnessKey : List F)
    (hhk : ∀ ikm info, (hkdf ikm info).length = 32)
    (hmsg : ∀ mi ∈ msgAndInfos, mi.1.length = 32)
    (hrk : randomnessKey.length = 32)
    (hrb : (C.scalarToBytes r).length = 32) :
    (publicKeys.length ≠ 0 → publicKeys.length = msgAndInfos.length →
      ∃ enc, encryptBatched C hkdf r publicKeys id msgAndInfos randomnessKey =
          some enc ∧
        enc.nonce = C.g2mul C.g2gen r ∧
        enc.encryptedRandomness =
          List.zipWith (· + ·) randomnessKey (C.scalarToBytes r) ∧
        enc.encryptedShares.length = msgAndInfos.length ∧
        ∀ (i : Nat) (pk : G2) (mi : List F × List F),
          publicKeys[i]? = some pk → msgAndInfos[i]? = some mi →
          enc.encryptedShares[i]? = some (List.zipWith (· + ·) mi.1
            (kdf hkdf (C.gtToBytes
              (C.pairing (C.g1mul (C.hashToG1 id) r) pk)) mi.2))) ∧
    ((publicKeys.length = 0 ∨ publicKeys.length ≠ msgAndInfos.length) →
      encryptBatched C hkdf r publicKeys id msgAndInfos randomnessKey =
        none) := by
  constructor
  · intro h0 hlen
    rw [encryptBatched_unfold C hkdf r publicKeys id msgAndInfos
      randomnessKey h0 hlen]
    have hkdflen : ∀ g i, (kdf hkdf g i : List F).length = 32 := by
      intro g i
      rw [kdf]
      exact hhk _ _
    obtain ⟨shares, hsh, hshlen, hshget⟩ := mapM_option_spec
      (fun mk : (List F × List F) × GT =>
        xorB mk.1.1 (kdf hkdf (C.gtToBytes mk.2) mk.1.2))
      (msgAndInfos.zip (publicKeys.map
        (fun pk => C.pairing (C.g1mul (C.hashToG1 id) r) pk)))
      (by
        intro mk hmk
        have hm := (List.of_mem_zip hmk).1
        show (xorB mk.1.1 (kdf hkdf (C.gtToBytes mk.2) mk.1.2)).isSome = true
        rw [xorB, if_pos (by rw [hmsg _ hm, hkdflen])]
        rfl)
    rw [hsh]
    have her : xorB randomnessKey (C.scalarToBytes r) =
        some (List.zipWith (· + ·) randomnessKey (C.scalarToBytes r)) := by
      rw [xorB, if_pos (by rw [hrk, hrb])]
    rw [Option.some_bind, her, Option.some_bind]
    refine ⟨_, rfl, rfl, rfl, ?_, ?_⟩
    · rw [hshlen, List.length_zip, List.length_map, hlen, min_self]
    · intro i pk mi hpk hmi
      have hz : (msgAndInfos.zip (publicKeys.map
          (fun pk => C.pairing (C.g1mul (C.hashToG1 id) r) pk)))[i]? =
          some (mi, C.pairing (C.g1mul (C.hashToG1 id) r) pk) := by
        apply zip_getElem? _ _ i _ _ hmi
        rw [List.getElem?_map, hpk]
        rfl
      rw [hshget i, hz, Option.some_bind]
      show xorB mi.1 (kdf hkdf (C.gtToBytes
        (C.pairing (C.g1mul (C.hashToG1 id) r) pk)) mi.2) = _
      rw [xorB, if_pos (by rw [hmsg mi (List.getElem?_mem hmi), hkdflen])]
  · intro h
    rw [encryptBatched, if_pos h]

/-- C7: encryptBatched with random scalar r produces nonce g2 * r, per-index
share m_i xor kdf(pairing(hashToG1(id) * r, publicKeys[i]), info_i), and
encrypted randomness randomnessKey xor scalar_to_bytes(r); it fails when the
number of public keys is zero or differs from the number of messages. -/
theorem encryptBatched_spec {F S G1 G2 GT : Type} [Field F]
    (C : Curve F S G1 G2 GT) (hkdf : List F → List F → List F) (r : S)
    (publicKeys : List G2) (id : List F)
    (msgAndInfos : List (List F × List F)) (randomnessKey : List F)
    (hhk : ∀ ikm info, (hkdf ikm info).length = 32)
    (hmsg : ∀ mi ∈ msgAndInfos, mi.1.length = 32)
    (hrk : randomnessKey.length = 32)
    (hrb : (C.scalarToBytes r).length = 32) :
    (publicKeys.length ≠ 0 → publicKeys.length = msgAndInfos.length →
      ∃ enc, encryptBatched C hkdf r publicKeys id msgAndInfos randomnessKey =
          some enc ∧
        enc.nonce = C.g2mul C.g2gen r ∧
        enc.encryptedRandomness =
          List.zipWith (· + ·) randomnessKey (C.scalarToBytes r) ∧
        enc.encryptedShares.length = msgAndInfos.length ∧
        ∀ (i : Nat) (pk : G2) (mi : List F × List F),
          publicKeys[i]? = some pk → msgAndInfos[i]? = some mi →
          enc.encryptedShares[i]? = some (List.zipWith (· + ·) mi.1
            (kdf hkdf (C.gtToBytes
              (C.pairing (C.g1mul (C.hashToG1 id) r) pk)) mi.2))) ∧
    ((publicKeys.length = 0 ∨ publicKeys.length ≠ msgAndInfos.length) →
      encryptBatched C hkdf r publicKeys id msgAndInfos randomnessKey =
        none) :=
  encryptBatched_props C hkdf r publicKeys id msgAndInfos randomnessKey
    hhk hmsg hrk hrb

/- ### Shamir sharing: Lagrange recovery -/

theorem hornerEval_eq_sum {F : Type} [Field F] (c : List F) (x : F) :
    hornerEval c x = ∑ k ∈ Finset.range c.length, c.getD k 0 * x ^ k := by
  induction c with
  | nil => simp [hornerEval]
  | cons a t ih =>
    show a + x * hornerEval t x = _
    rw [ih, Finset.mul_sum, List.length_cons, Finset.sum_range_succ']
    simp only [List.getD_cons_succ, List.getD_cons_zero, pow_zero, mul_one]
    rw [add_comm]
    congr 1
    exact Finset.sum_congr rfl (fun k _ => by ring)

theorem hornerEval_cons_sum {F : Type} [Field F] (s : F) (c : List F)
    (x : F) : hornerEval (s :: c) x =
      s + ∑ k ∈ Finset.range c.length, c.getD k 0 * x ^ (k + 1) := by
  show s + x * hornerEval c x = _
  rw [hornerEval_eq_sum, Finset.mul_sum]
  congr 1
  exact Finset.sum_congr rfl (fun k _ => by ring)

theorem hornerEval_cons_zero {F : Type} [Field F] (s : F) (c : List F) :
    hornerEval (s :: c) (0 : F) = s := by
  show s + 0 * hornerEval c 0 = s
  ring

theorem eval_shamir_poly {F : Type} [Field F] (s : F) (c : List F) (x : F) :
    Polynomial.eval x (Polynomial.C s + ∑ k ∈ Finset.range c.length,
      Polynomial.C (c.getD k 0) * Polynomial.X ^ (k + 1)) =
      hornerEval (s :: c) x := by
  rw [hornerEval_cons_sum]
  simp [Polynomial.eval_finset_sum]

theorem degree_shamir_poly {F : Type} [Field F] (s : F) (c : List F) :
    (Polynomial.C s + ∑ k ∈ Finset.range c.length,
      Polynomial.C (c.getD k 0) * Polynomial.X ^ (k + 1)).degree <
      ((c.length + 1 : ℕ) : WithBot ℕ) := by
  apply lt_of_le_of_lt (Polynomial.degree_add_le _ _)
  rw [max_lt_iff]
  constructor
  · exact lt_of_le_of_lt Polynomial.degree_C_le
      (by exact_mod_cast Nat.succ_pos c.length)
  · apply lt_of_le_of_lt (Polynomial.degree_sum_le _ _)
    rw [Finset.sup_lt_iff (by exact WithBot.bot_lt_coe _)]
    intro k hk
    apply lt_of_le_of_lt (Polynomial.degree_C_mul_X_pow_le _ _)
    exact_mod_cast Nat.succ_lt_succ (Finset.mem_range.mp hk)

theorem lagrangeZero_recover {F : Type} [Field F] [DecidableEq F]
    (s : F) (c : List F) (pts : List (F × F))
    (hnd : (pts.map Prod.fst).Nodup)
    (hdeg : c.length < pts.length)
    (hval : ∀ p ∈ pts, p.2 = hornerEval (s :: c) p.1) :
    lagrangeZero pts = s := by
  classical
  set v : Fin pts.length → F := fun i => (pts.get i).1 with hv
  set r : Fin pts.length → F := fun i => (pts.get i).2 with hr
  have hvs : Set.InjOn v (Finset.univ : Finset (Fin pts.length)) := by
    intro i _ j _ hij
    have hi2 : (i : Nat) < (pts.map Prod.fst).length := by
      rw [List.length_map]; exact i.isLt
    have hj2 : (j : Nat) < (pts.map Prod.fst).length := by
      rw [List.length_map]; exact j.isLt
    have hg : (pts.map Prod.fst).get ⟨i, hi2⟩ =
        (pts.map Prod.fst).get ⟨j, hj2⟩ := by
      rw [List.get_map, List.get_map]
      exact hij
    have h2 := (List.Nodup.get_inj_iff hnd).mp hg
    have h3 : (i : Nat) = (j : Nat) :=
      congrArg (@Fin.val ((pts.map Prod.fst).length)) h2
    exact Fin.ext h3
  set f : Polynomial F := Polynomial.C s + ∑ k ∈ Finset.range c.length,
    Polynomial.C (c.getD k 0) * Polynomial.X ^ (k + 1) with hf
  have hdegf : f.degree < ((Finset.univ : Finset (Fin pts.length)).card :
      WithBot ℕ) := by
    rw [Finset.card_univ, Fintype.card_fin]
    exact lt_of_lt_of_le (degree_shamir_poly s c) (by exact_mod_cast hdeg)
  have hinterp : f = Lagrange.interpolate Finset.univ v
      (fun i => Polynomial.eval (v i) f) :=
    Lagrange.eq_interpolate hvs hdegf
  have hvals : Lagrange.interpolate Finset.univ v
      (fun i => Polynomial.eval (v i) f) =
      Lagrange.interpolate Finset.univ v r := by
    apply Lagrange.interpolate_eq_of_values_eq_on
    intro i _
    rw [hf, eval_shamir_poly]
    exact (hval (pts.get i) (pts.get_mem i i.isLt)).symm
  have hexp : Polynomial.eval 0 (Lagrange.interpolate Finset.univ v r) =
      ∑ i : Fin pts.length, r i *
        ∏ j ∈ Finset.univ.erase i, ((v i - v j)⁻¹ * (0 - v j)) := by
    rw [Lagrange.interpolate_apply, Polynomial.eval_finset_sum]
    refine Finset.sum_congr rfl (fun i _ => ?_)
    rw [Polynomial.eval_mul, Polynomial.eval_C, Lagrange.basis,
      Polynomial.eval_prod]
    refine congrArg _ (Finset.prod_congr rfl (fun j _ => ?_))
    simp [Lagrange.basisDivisor]
  have hs : Polynomial.eval 0 f = s := by
    rw [hf, eval_shamir_poly, hornerEval_cons_zero]
  calc lagrangeZero pts
      = ∑ i : Fin pts.length, r i *
          ∏ j ∈ Finset.univ.erase i, ((v i - v j)⁻¹ * (0 - v j)) := rfl
    _ = Polynomial.eval 0 (Lagrange.interpolate Finset.univ v r) := hexp.symm
    _ = Polynomial.eval 0 f := by rw [← hvals, ← hinterp]
    _ = s := hs

theorem range_map_getD {α : Type} (l : List α) (d : α) :
    (List.range l.length).map (fun b => l.getD b d) = l := by
  induction l with
  | nil => rfl
  | cons x t ih =>
    rw [List.length_cons, List.range_succ_eq_map, List.map_cons, List.map_map]
    simp only [List.getD_cons_zero, Function.comp_def, List.getD_cons_succ]
    exact congrArg (List.cons x) ih

theorem externalCombine_recover {F : Type} [Field F] [DecidableEq F]
    (secret : List F) (cf : Nat → List F) (shares : List (Nat × List F))
    (hne : shares ≠ [])
    (hnd : (shares.map (fun sh => ((sh.1 : Nat) : F))).Nodup)
    (hdeg : ∀ b, b < secret.length → (cf b).length < shares.length)
    (hlen : ∀ sh ∈ shares, sh.2.length = secret.length)
    (hval : ∀ sh ∈ shares, ∀ b, b < secret.length →
      sh.2.getD b 0 = hornerEval (secret.getD b 0 :: cf b) ((sh.1 : Nat) : F)) :
    externalCombine shares = secret := by
  have hhead : (shares.headD (0, [])).2.length = secret.length := by
    cases shares with
    | nil => exact absurd rfl hne
    | cons sh t => exact hlen sh (by simp)
  rw [externalCombine, hhead]
  have hbyte : ∀ b ∈ List.range secret.length,
      lagrangeZero (shares.map
        (fun sh => (((sh.1 : Nat) : F), sh.2.getD b 0))) = secret.getD b 0 := by
    intro b hb
    have hblt : b < secret.length := List.mem_range.mp hb
    apply lagrangeZero_recover (secret.getD b 0) (cf b)
    · rw [List.map_map]
      simpa [Function.comp_def] using hnd
    · simpa using hdeg b hblt
    · intro p hp
      obtain ⟨sh, hsh, rfl⟩ := List.mem_map.mp hp
      exact hval sh hsh b hblt
  rw [List.map_eq_map_iff.mpr hbyte]
  exact range_map_getD secret 0

theorem combine_ge2 {F : Type} [Field F] [DecidableEq F]
    (shares : List (Nat × List F)) (h : 2 ≤ shares.length) :
    combine shares = some (externalCombine shares) := by
  cases shares with
  | nil => simp at h
  | cons a t =>
    cases t with
    | nil => simp at h
    | cons b u => rfl

theorem getD_map_range {α : Type} (f : Nat → α) (n i : Nat) (d : α)
    (h : i < n) : ((List.range n).map f).getD i d = f i := by
  rw [List.getD_eq_getElem _ d (by simp [h]), List.getElem_map]
  simp [List.getElem_range]

theorem evalShareAt_length {F : Type} [Field F] (secret : List F)
    (coeffs : List (List F)) (x : F) (hc : coeffs.length = secret.length) :
    (evalShareAt secret coeffs x).length = secret.length := by
  rw [evalShareAt, List.length_zipWith, hc, min_self]

theorem evalShareAt_getD {F : Type} [Field F] (secret : List F)
    (coeffs : List (List F)) (x : F) (b : Nat)
    (hb : b < secret.length) (hc : coeffs.length = secret.length) :
    (evalShareAt secret coeffs x).getD b 0 =
      hornerEval (secret.getD b 0 :: coeffs.getD b []) x := by
  have hlen : b < (evalShareAt secret coeffs x).length := by
    rw [evalShareAt_length secret coeffs x hc]
    exact hb
  rw [List.getD_eq_getElem _ _ hlen]
  simp only [evalShareAt, List.getElem_zipWith]
  rw [List.getD_eq_getElem secret 0 hb,
    List.getD_eq_getElem coeffs [] (by omega)]

/-- C2: combining any t-element subset of the shares produced by
split(s, n, t) returns s, for 1 <= t <= n.  The subset is given by a
duplicate-free list of positions into the share list; the n share
x-coordinates must stay distinct when mapped into the field (automatic for
GF(256) since n <= 255). -/
theorem split_combine_roundtrip {F : Type} [Field F] [DecidableEq F]
    (secret : List F) (coeffs : List (List F)) (n t : Nat)
    (hsec : secret.length = 32)
    (hcoef : coeffs.length = secret.length)
    (hcl : ∀ c ∈ coeffs, c.length = t - 1)
    (ht1 : 1 ≤ t) (htn : t ≤ n)
    (hcast : ∀ i ∈ usedIdx t n, ∀ j ∈ usedIdx t n,
      ((i : Nat) : F) = ((j : Nat) : F) → i = j)
    (idx : List Nat) (hidx : idx.Nodup) (hil : ∀ i ∈ idx, i < n)
    (hlen : idx.length = t) :
    ∃ shares, split secret coeffs n t = some shares ∧
      combine (idx.map (fun i => shares.getD i (0, []))) = some secret := by
  by_cases ht : t = 1
  · subst ht
    refine ⟨(List.range n).map (fun i => (i, secret)), ?_, ?_⟩
    · rw [split, if_neg (by omega), if_pos rfl]
    · have hsub : idx.map (fun i =>
          (((List.range n).map (fun i => (i, secret))).getD i (0, []))) =
          idx.map (fun i => (i, secret)) :=
        List.map_eq_map_iff.mpr (fun i hi =>
          getD_map_range _ n i (0, []) (hil i hi))
      rw [hsub]
      cases idx with
      | nil => simp at hlen
      | cons a rest =>
        cases rest with
        | nil => rfl
        | cons b rest2 => simp at hlen
  · have ht2 : 2 ≤ t := by omega
    refine ⟨(List.range n).map (fun j =>
      (j + 1, evalShareAt secret coeffs ((j + 1 : Nat) : F))), ?_, ?_⟩
    · rw [split, if_neg (by omega), if_neg ht]
    · have hsub : idx.map (fun i =>
          (((List.range n).map (fun j =>
            (j + 1, evalShareAt secret coeffs ((j + 1 : Nat) : F)))).getD i
              (0, []))) =
          idx.map (fun i =>
            (i + 1, evalShareAt secret coeffs ((i + 1 : Nat) : F))) :=
        List.map_eq_map_iff.mpr (fun i hi =>
          getD_map_range _ n i (0, []) (hil i hi))
      rw [hsub]
      have hsublen : (idx.map (fun i =>
          (i + 1, evalShareAt secret coeffs ((i + 1 : Nat) : F)))).length =
          t := by rw [List.length_map, hlen]
      rw [combine_ge2 _ (by omega)]
      congr 1
      apply externalCombine_recover secret (fun b => coeffs.getD b [])
      · intro h0
        rw [h0] at hsublen
        simp at hsublen
        omega
      · rw [List.map_map]
        have hcomp : ((fun sh : Nat × List F => ((sh.1 : Nat) : F)) ∘
            (fun i => (i + 1, evalShareAt secret coeffs ((i + 1 : Nat) : F))))
            = fun i : Nat => ((i + 1 : Nat) : F) := rfl
        rw [hcomp]
        apply List.Nodup.map_on _ hidx
        intro x hx y hy hxy
        have hmem : ∀ z ∈ idx, z + 1 ∈ usedIdx t n := by
          intro z hz
          rw [usedIdx, if_neg ht]
          exact List.mem_map.mpr ⟨z, List.mem_range.mpr (hil z hz), rfl⟩
        have := hcast (x + 1) (hmem x hx) (y + 1) (hmem y hy) hxy
        omega
      · intro b hb
        have hblt : b < coeffs.length := by omega
        have hcb : coeffs.getD b [] ∈ coeffs := by
          rw [List.getD_eq_getElem coeffs [] hblt]
          exact List.getElem_mem hblt
        rw [hcl _ hcb, hsublen]
        omega
      · intro sh hsh
        obtain ⟨i, hi, rfl⟩ := List.mem_map.mp hsh
        exact evalShareAt_length secret coeffs _ hcoef
      · intro sh hsh b hb
        obtain ⟨i, hi, rfl⟩ := List.mem_map.mp hsh
        exact evalShareAt_getD secret coeffs _ b hb hcoef

/- ### End-to-end round trip -/

theorem xorB_cancel {F : Type} [Field F] (hchar : ∀ x : F, x + x = 0)
    (v k : List F) (hv : v.length = k.length) :
    xorB (List.zipWith (· + ·) v k) k = some v := by
  rw [xorB, if_pos (by simp [hv])]
  exact congrArg some (xorUnchecked_cancel hchar v k (le_of_eq hv))

theorem countP_range_getD {α : Type} (l : List α) (d : α) (p : α → Bool) :
    (List.range l.length).countP (fun i => p (l.getD i d)) = l.countP p := by
  induction l with
  | nil => rfl
  | cons x t ih =>
    rw [List.length_cons, List.range_succ_eq_map, List.countP_cons,
      List.countP_map]
    simp only [List.getD_cons_zero, Function.comp_def, List.getD_cons_succ]
    rw [ih, List.countP_cons]

theorem list_ext_getD {α : Type} (l1 l2 : List α) (d : α)
    (hlen : l1.length = l2.length)
    (h : ∀ b, b < l1.length → l1.getD b d = l2.getD b d) : l1 = l2 := by
  apply List.ext_getElem hlen
  intro i h1 h2
  have hb := h i h1
  rwa [List.getD_eq_getElem _ d h1, List.getD_eq_getElem _ d h2] at hb

theorem hornerEval_single {F : Type} [Field F] (s : F) (x : F) :
    hornerEval [s] x = s := by
  show s + x * 0 = s
  ring

theorem mapM_eq_map {α β : Type} (f : α → Option β) (g : α → β) :
    ∀ l : List α, (∀ a ∈ l, f a = some (g a)) → l.mapM f = some (l.map g) := by
  intro l
  induction l with
  | nil => exact fun _ => rfl
  | cons a t ih =>
    intro h
    rw [List.mapM_cons, h a (by simp), ih (fun x hx => h x (by simp [hx]))]
    rfl

/-- Main decryption lemma: on an envelope whose services pair the server
object ids with share index tags, whose encrypted shares carry a
polynomial sharing of the base key masked with the encapsulated pairing
keys, and whose ciphertext is the DEM encryption of `data` under the derived
DEM key, decrypt returns `data` whenever the cache holds correctly-extracted
user secret keys for at least `threshold` of the envelope's entries. -/
theorem decryptCore_ok {F S G1 G2 GT : Type} [Field F] [DecidableEq F]
    (C : Curve F S G1 G2 GT)
    (hmac hkdf : List F → List F → List F)
    (aesEnc : List F → List F → List F → List F)
    (aesDec : List F → List F → List F → Option (List F))
    (keyServers : List (Nat × G2)) (threshold : Nat)
    (packageId id : List F) (demType : DemType) (data aad : List F)
    (baseKey : List F) (r : S) (msk : Nat → S)
    (keys : List ((List F × Nat) × G1))
    (tag : Nat → Nat) (val : Nat → List F) (cf : Nat → List F)
    (ibe : IBEEnc F G2) (eo : EncObj F G2)
    (hchar : ∀ x : F, x + x = 0)
    (hswap : ∀ (P : G1) (a b : S),
      C.pairing (C.g1mul P a) (C.g2mul C.g2gen b) =
        C.pairing (C.g1mul P b) (C.g2mul C.g2gen a))
    (hhm : ∀ k m, (hmac k m).length = 32)
    (hhk : ∀ ikm info, (hkdf ikm info).length = 32)
    (haes : ∀ k m a, aesDec k (aesEnc k m a) a = some m)
    (hbk : baseKey.length = 32)
    (hpk : packageId.length = 32)
    (ht1 : 1 ≤ threshold)
    (hmsk : ∀ p ∈ keyServers, p.2 = C.g2mul C.g2gen (msk p.1))
    (hcast : ∀ i ∈ usedIdx threshold keyServers.length,
      ∀ j ∈ usedIdx threshold keyServers.length,
      ((i : Nat) : F) = ((j : Nat) : F) → i = j)
    (hgood : ∀ o g1, o ∈ keyServers.map Prod.fst →
      cacheGet keys (fullIdOf packageId id, o) = some g1 →
      g1 = C.g1mul (C.hashToG1 (fullIdOf packageId id)) (msk o))
    (hcount : threshold ≤ (keyServers.map Prod.fst).countP
      (fun o => (cacheGet keys (fullIdOf packageId id, o)).isSome))
    (htag_mem : ∀ j, j < keyServers.length →
      tag j ∈ usedIdx threshold keyServers.length)
    (htag_inj : ∀ i j, i < keyServers.length → j < keyServers.length →
      tag i = tag j → i = j)
    (hval_len : ∀ j, j < keyServers.length → (val j).length = 32)
    (hval_poly : ∀ j, j < keyServers.length → ∀ b, b < 32 →
      (val j).getD b 0 =
        hornerEval (baseKey.getD b 0 :: cf b) ((tag j : Nat) : F))
    (hcf : ∀ b, b < 32 → (cf b).length < threshold)
    (hnonce : ibe.nonce = C.g2mul C.g2gen r)
    (hibelen : ibe.encryptedShares.length = keyServers.length)
    (hibe : ∀ j, (hj : j < keyServers.length) →
      ibe.encryptedShares.getD j [] =
        List.zipWith (· + ·) (val j)
          (kdf hkdf (C.gtToBytes (C.pairing
            (C.g1mul (C.hashToG1 (fullIdOf packageId id)) r)
            (keyServers.get ⟨j, hj⟩).2)) [((tag j : Nat) : F)]))
    (heo_pkg : eo.packageId = packageId) (heo_id : eo.id = id)
    (heo_svc : eo.services = List.zipWith (fun sv sh => (sv.1, sh.1))
      keyServers ((List.range keyServers.length).map
        (fun j => (tag j, val j))))
    (heo_thr : eo.threshold = threshold)
    (heo_ibe : eo.encryptedShares = ibe)
    (heo_ct : eo.ciphertext = demEncrypt hmac aesEnc demType
      (deriveKey hmac .DEM baseKey) data aad) :
    decryptCore C hmac hkdf aesDec eo keys = Except.ok data := by
  have hn0 : keyServers.length ≠ 0 := by
    intro h0
    rw [List.countP_eq_length_filter] at hcount
    have : (keyServers.map Prod.fst).length = 0 := by simp [h0]
    have hle := List.length_filter_le
      (fun o => (cacheGet keys (fullIdOf packageId id, o)).isSome)
      (keyServers.map Prod.fst)
    omega
  set fid := fullIdOf packageId id with hfiddef
  set svc := List.zipWith
    (fun (sv : Nat × G2) (sh : Nat × List F) => (sv.1, sh.1)) keyServers
    ((List.range keyServers.length).map (fun j => (tag j, val j)))
    with hsvcdef
  have hsvclen : svc.length = keyServers.length := by
    rw [hsvcdef]
    simp
  have hsvcat : ∀ j, (hj : j < keyServers.length) →
      svc.getD j (0, 0) = ((keyServers.get ⟨j, hj⟩).1, tag j) := by
    intro j hj
    rw [hsvcdef]
    rw [List.getD_eq_getElem _ _ (by simpa using hj), List.getElem_zipWith]
    rw [List.getElem_map, List.getElem_range]
    rw [List.get_eq_getElem]
  have hfid_eq : createFullId (DSTf F) packageId id = some fid := by
    rw [createFullId, if_pos hpk]
    rfl
  rw [decryptCore, heo_pkg, heo_id, heo_svc, heo_thr, heo_ibe, heo_ct]
  simp only [hfid_eq]
  set inK := List.filter
    (fun i => (cacheGet keys (fid, (svc.getD i (0, 0)).1)).isSome)
    (List.range svc.length) with hinKdef
  have hmapgetD : ∀ i, i < keyServers.length →
      (svc.getD i (0, 0)).1 = (keyServers.map Prod.fst).getD i 0 := by
    intro i hi
    rw [hsvcat i hi, List.getD_eq_getElem _ _ (by simpa using hi),
      List.getElem_map, List.get_eq_getElem]
  have hinKlen : threshold ≤ inK.length := by
    have h1 : inK = (List.range svc.length).filter
        (fun i => (cacheGet keys (fid,
          ((keyServers.map Prod.fst).getD i 0))).isSome) := by
      rw [hinKdef]
      apply List.filter_congr
      intro i hi
      have hi2 : i < keyServers.length := by
        rw [← hsvclen]
        exact List.mem_range.mp hi
      rw [hmapgetD i hi2]
    rw [h1, hsvclen,
      show keyServers.length = (keyServers.map Prod.fst).length by simp,
      ← List.countP_eq_length_filter,
      countP_range_getD (keyServers.map Prod.fst) 0
        (fun o => (cacheGet keys (fid, o)).isSome)]
    exact hcount
  have hinK_bound : ∀ i ∈ inK, i < keyServers.length := by
    intro i hi
    rw [hinKdef] at hi
    have := (List.mem_filter.mp hi).1
    rw [← hsvclen]
    exact List.mem_range.mp this
  have hinK_nodup : inK.Nodup := by
    rw [hinKdef]
    exact (List.nodup_range _).filter _
  rw [if_neg (by omega)]
  rw [if_neg (by simp [hibelen, hsvclen])]
  have hstep : ∀ i ∈ inK, decryptShareStep C hkdf keys fid ibe.nonce
      ibe.encryptedShares svc i = some (tag i, val i) := by
    intro i hi
    have hi1 : i < keyServers.length := hinK_bound i hi
    have hsvci := hsvcat i hi1
    have hisome : (cacheGet keys (fid, (svc.getD i (0, 0)).1)).isSome := by
      rw [hinKdef] at hi
      exact (List.mem_filter.mp hi).2
    rw [hsvci] at hisome
    obtain ⟨usk, husk⟩ := Option.isSome_iff_exists.mp hisome
    have husk2 : usk = C.g1mul (C.hashToG1 fid)
        (msk (keyServers.get ⟨i, hi1⟩).1) := by
      apply hgood _ _ _ husk
      exact List.mem_map.mpr
        ⟨keyServers.get ⟨i, hi1⟩, List.get_mem _ _ _, rfl⟩
    simp only [decryptShareStep, hsvci, husk]
    rw [hibe i hi1, ibeDecrypt, husk2, hnonce, hswap,
      ← hmsk (keyServers.get ⟨i, hi1⟩) (List.get_mem _ _ _)]
    rw [xorB_cancel hchar _ _ (by rw [hval_len i hi1, kdf, hhk])]
    rfl
  have hM := mapM_eq_map
    (decryptShareStep C hkdf keys fid ibe.nonce ibe.encryptedShares svc)
    (fun i => (tag i, val i)) inK hstep
  simp only [hM]
  have hcomb : combine (inK.map (fun i => (tag i, val i))) = some baseKey := by
    by_cases hm1 : inK.length = 1
    · obtain ⟨i0, hi0⟩ : ∃ i0, inK = [i0] := by
        cases hK : inK with
        | nil => rw [hK] at hm1; simp at hm1
        | cons a t =>
          cases hT : t with
          | nil => exact ⟨a, rfl⟩
          | cons b u => rw [hK, hT] at hm1; simp at hm1
      have hi0mem : i0 ∈ inK := by rw [hi0]; simp
      have hi0lt : i0 < keyServers.length := hinK_bound i0 hi0mem
      rw [hi0]
      show combine [(tag i0, val i0)] = some baseKey
      have hone : combine [(tag i0, val i0)] = some (val i0) := rfl
      rw [hone]
      congr 1
      apply list_ext_getD _ _ (0 : F) (by rw [hval_len i0 hi0lt, hbk])
      intro b hb
      have hb32 : b < 32 := by rw [hval_len i0 hi0lt] at hb; omega
      rw [hval_poly i0 hi0lt b hb32]
      have hcf0 : cf b = [] := List.length_eq_zero.mp
        (by have := hcf b hb32; omega)
      rw [hcf0, hornerEval_single]
    · have hm2 : 2 ≤ inK.length := by omega
      rw [combine_ge2 _ (by rw [List.length_map]; omega)]
      congr 1
      apply externalCombine_recover baseKey cf
      · intro h0
        have : (inK.map (fun i => (tag i, val i))).length = 0 := by
          rw [h0]
          rfl
        rw [List.length_map] at this
        omega
      · rw [List.map_map]
        have hcomp : ((fun sh : Nat × List F => ((sh.1 : Nat) : F)) ∘
            (fun i => (tag i, val i))) = fun i : Nat => ((tag i : Nat) : F) :=
          rfl
        rw [hcomp]
        apply List.Nodup.map_on _ hinK_nodup
        intro x hx y hy hxy
        have hxl : x < keyServers.length := hinK_bound x hx
        have hyl : y < keyServers.length := hinK_bound y hy
        exact htag_inj x y hxl hyl
          (hcast (tag x) (htag_mem x hxl) (tag y) (htag_mem y hyl) hxy)
      · intro b hb
        have hb32 : b < 32 := by omega
        have := hcf b hb32
        rw [List.length_map]
        omega
      · intro sh hsh
        obtain ⟨i, hi, rfl⟩ := List.mem_map.mp hsh
        rw [hval_len i (hinK_bound i hi), hbk]
      · intro sh hsh b hb
        obtain ⟨i, hi, rfl⟩ := List.mem_map.mp hsh
        have hb32 : b < 32 := by omega
        exact hval_poly i (hinK_bound i hi) b hb32
  simp only [hcomb]
  cases demType with
  | AesGcm256 =>
    simp only [demEncrypt, aesGcmEncrypt, aesGcmDecrypt, Option.getD_some,
      haes]
  | Hmac256Ctr =>
    have hrt : hmacCtrDecrypt hmac (deriveKey hmac .DEM baseKey)
        (hmacCtrEncrypt hmac (deriveKey hmac .DEM baseKey) data aad) =
        Except.ok data := by
      rw [hmacCtrEncrypt, hmacCtrDecrypt]
      simp only [Option.getD_some, if_true]
      rw [encryptInCtrMode_involution hmac hchar hhm]
    rw [hmacCtrEncrypt] at hrt
    simp only [demEncrypt, hmacCtrEncrypt, hrt]

/-- C1: for every key-server list, threshold 1 <= t <= n <= 255, valid
packageId, identity, payload and aad, and either DEM mode, decrypting the
envelope produced by encrypt returns the original data, provided the key
cache holds correctly-extracted user secret keys for the full id for at
least t of the envelope's servers.  The randomness drawn by encrypt (the
base key, the Shamir coefficients and the IBE scalar) is explicit, the
external primitives are parameters constrained by their contracts, and the
share x-coordinates must stay distinct in the field (automatic for GF(256)
with at most 255 servers). -/
theorem encrypt_decrypt_roundtrip {F S G1 G2 GT : Type} [Field F]
    [DecidableEq F] (C : Curve F S G1 G2 GT)
    (hmac hkdf : List F → List F → List F)
    (aesEnc : List F → List F → List F → List F)
    (aesDec : List F → List F → List F → Option (List F))
    (keyServers : List (Nat × G2)) (threshold : Nat)
    (packageId id : List F) (demType : DemType) (data aad : List F)
    (baseKey : List F) (coeffs : List (List F)) (r : S)
    (msk : Nat → S) (keys : List ((List F × Nat) × G1))
    (hchar : ∀ x : F, x + x = 0)
    (hswap : ∀ (P : G1) (a b : S),
      C.pairing (C.g1mul P a) (C.g2mul C.g2gen b) =
        C.pairing (C.g1mul P b) (C.g2mul C.g2gen a))
    (hhm : ∀ k m, (hmac k m).length = 32)
    (hhk : ∀ ikm info, (hkdf ikm info).length = 32)
    (haes : ∀ k m a, aesDec k (aesEnc k m a) a = some m)
    (hbk : baseKey.length = 32)
    (hrb : (C.scalarToBytes r).length = 32)
    (hpk : packageId.length = 32)
    (ht1 : 1 ≤ threshold) (htn : threshold ≤ keyServers.length)
    (hn255 : keyServers.length ≤ 255)
    (hcoef : coeffs.length = baseKey.length)
    (hcl : ∀ c ∈ coeffs, c.length = threshold - 1)
    (hmsk : ∀ p ∈ keyServers, p.2 = C.g2mul C.g2gen (msk p.1))
    (hcast : ∀ i ∈ usedIdx threshold keyServers.length,
      ∀ j ∈ usedIdx threshold keyServers.length,
      ((i : Nat) : F) = ((j : Nat) : F) → i = j)
    (hgood : ∀ o g1, o ∈ keyServers.map Prod.fst →
      cacheGet keys (fullIdOf packageId id, o) = some g1 →
      g1 = C.g1mul (C.hashToG1 (fullIdOf packageId id)) (msk o))
    (hcount : threshold ≤ (keyServers.map Prod.fst).countP
      (fun o => (cacheGet keys (fullIdOf packageId id, o)).isSome)) :
    ∃ eo demKey,
      encryptCore C hmac hkdf aesEnc keyServers threshold packageId id
        demType data aad baseKey coeffs r = Except.ok (eo, demKey) ∧
      decryptCore C hmac hkdf aesDec eo keys = Except.ok data := by
  obtain ⟨tagF, valF, cfF, hsplit, htag_mem, htag_inj, hval_len, hval_poly,
      hcf⟩ :
      ∃ (tagF : Nat → Nat) (valF : Nat → List F) (cfF : Nat → List F),
        split baseKey coeffs keyServers.length threshold =
          some ((List.range keyServers.length).map
            (fun j => (tagF j, valF j))) ∧
        (∀ j, j < keyServers.length →
          tagF j ∈ usedIdx threshold keyServers.length) ∧
        (∀ i j, i < keyServers.length → j < keyServers.length →
          tagF i = tagF j → i = j) ∧
        (∀ j, j < keyServers.length → (valF j).length = 32) ∧
        (∀ j, j < keyServers.length → ∀ b, b < 32 → (valF j).getD b 0 =
          hornerEval (baseKey.getD b 0 :: cfF b) ((tagF j : Nat) : F)) ∧
        (∀ b, b < 32 → (cfF b).length < threshold) := by
    by_cases ht : threshold = 1
    · refine ⟨fun i => i, fun _ => baseKey, fun _ => [], ?_, ?_, ?_, ?_,
        ?_, ?_⟩
      · rw [split, if_neg (by omega), if_pos ht]
      · intro j hj
        rw [usedIdx, ht, if_pos rfl]
        exact List.mem_range.mpr hj
      · intro i j _ _ h
        exact h
      · intro j _
        exact hbk
      · intro j _ b _
        exact (hornerEval_single _ _).symm
      · intro b _
        simp [ht]
    · refine ⟨fun j => j + 1,
        fun j => evalShareAt baseKey coeffs ((j + 1 : Nat) : F),
        fun b => coeffs.getD b [], ?_, ?_, ?_, ?_, ?_, ?_⟩
      · rw [split, if_neg (by omega), if_neg ht]
      · intro j hj
        rw [usedIdx, if_neg ht]
        exact List.mem_map.mpr ⟨j, List.mem_range.mpr hj, rfl⟩
      · intro i j _ _ h
        have h2 : i + 1 = j + 1 := h
        omega
      · intro j _
        rw [evalShareAt_length _ _ _ hcoef, hbk]
      · intro j _ b hb
        exact evalShareAt_getD baseKey coeffs _ b (by omega) hcoef
      · intro b hb
        have hblt : b < coeffs.length := by omega
        have hcb : coeffs.getD b [] ∈ coeffs := by
          rw [List.getD_eq_getElem coeffs [] hblt]
          exact List.getElem_mem hblt
        rw [hcl _ hcb]
        omega
  have hfid_eq : createFullId (DSTf F) packageId id =
      some (fullIdOf packageId id) := by
    rw [createFullId, if_pos hpk]
    rfl
  have hmsgs : ∀ mi ∈ (((List.range keyServers.length).map
      (fun j => (tagF j, valF j))).map
        (fun sh => (sh.2, [((sh.1 : Nat) : F)]))), mi.1.length = 32 := by
    intro mi hmi
    obtain ⟨sh, hsh, rfl⟩ := List.mem_map.mp hmi
    obtain ⟨j, hj, rfl⟩ := List.mem_map.mp hsh
    exact hval_len j (List.mem_range.mp hj)
  obtain ⟨ibe, hibe_eq, hnonce, hrand, hibelen, hibe_pt⟩ :=
    (encryptBatched_props C hkdf r (keyServers.map (·.2))
      (fullIdOf packageId id)
      (((List.range keyServers.length).map (fun j => (tagF j, valF j))).map
        (fun sh => (sh.2, [((sh.1 : Nat) : F)])))
      (deriveKey hmac .EncryptedRandomness baseKey) hhk hmsgs
      (hhm _ _) hrb).1
    (by simp only [List.length_map]; omega) (by simp)
  have hibelen2 : ibe.encryptedShares.length = keyServers.length := by
    rw [hibelen]
    simp
  have hibeD : ∀ j, (hj : j < keyServers.length) →
      ibe.encryptedShares.getD j [] =
        List.zipWith (· + ·) (valF j)
          (kdf hkdf (C.gtToBytes (C.pairing
            (C.g1mul (C.hashToG1 (fullIdOf packageId id)) r)
            (keyServers.get ⟨j, hj⟩).2)) [((tagF j : Nat) : F)]) := by
    intro j hj
    have hpkj : (keyServers.map (·.2))[j]? =
        some (keyServers.get ⟨j, hj⟩).2 := by
      rw [List.getElem?_map, List.getElem?_eq_getElem hj]
      rw [List.get_eq_getElem]
      rfl
    have hmij : ((((List.range keyServers.length).map
        (fun j => (tagF j, valF j))).map
          (fun sh => (sh.2, [((sh.1 : Nat) : F)])))[j]?) =
        some (valF j, [((tagF j : Nat) : F)]) := by
      rw [List.getElem?_map, List.getElem?_map, List.getElem?_range hj]
      rfl
    have hpt := hibe_pt j _ _ hpkj hmij
    have hjlen : j < ibe.encryptedShares.length := by omega
    rw [List.getElem?_eq_getElem hjlen] at hpt
    rw [List.getD_eq_getElem _ _ hjlen]
    exact Option.some_inj.mp hpt
  refine ⟨EncObj.mk 0 packageId id
      (List.zipWith (fun sv sh => (sv.1, sh.1)) keyServers
        ((List.range keyServers.length).map (fun j => (tagF j, valF j))))
      threshold ibe
      (demEncrypt hmac aesEnc demType (deriveKey hmac .DEM baseKey) data
        aad),
    deriveKey hmac .DEM baseKey, ?_, ?_⟩
  · rw [encryptCore, if_neg (by
      simp only [not_or]
      refine ⟨by omega, by omega, by omega, by omega, fun h => h hpk⟩)]
    simp only [hsplit, hfid_eq, hibe_eq]
  · exact decryptCore_ok C hmac hkdf aesEnc aesDec keyServers threshold
      packageId id demType data aad baseKey r msk keys tagF valF cfF ibe _
      hchar hswap hhm hhk haes hbk hpk ht1 hmsk hcast hgood hcount
      htag_mem htag_inj hval_len hval_poly hcf hnonce hibelen2 hibeD
      rfl rfl rfl rfl rfl rfl

/- ### Concrete witnesses -/

/-- Concrete curve model over the integers used to instantiate the abstract
pairing interface in witnesses: multiplication plays the role of scalar
multiplication and of the pairing, which makes the swap law an instance of
commutativity and associativity. -/
def natCurve : Curve (ZMod 2) Nat Nat Nat Nat :=
  Curve.mk 1 (· * ·) (· * ·) (fun _ => 1) (· * ·)
    (fun _ => List.replicate 576 (0 : ZMod 2))
    (fun _ => List.replicate 32 (0 : ZMod 2))

/-- Constant-output stand-in for HMAC and HKDF in witnesses. -/
def zeroMac : List (ZMod 2) → List (ZMod 2) → List (ZMod 2) :=
  fun _ _ => List.replicate 32 (0 : ZMod 2)

/-- Injective-on-short-messages stand-in for HMAC in the aad-tamper
witness. -/
def takeMac : List (ZMod 2) → List (ZMod 2) → List (ZMod 2) :=
  fun _ m => (m ++ List.replicate 32 (0 : ZMod 2)).take 32

theorem createRequestParams_expiry_witness :
    createRequestParams (fun _ : Nat => ([] : List Nat)) (fun _ => [])
      (fun m => m) 0 1 0 5 [9, 7] =
      Except.ok ⟨5, requestFormatSerialize [7] [] []⟩ :=
  (createRequestParams_expiry (fun _ : Nat => ([] : List Nat)) (fun _ => [])
    (fun m => m) 0 1 0 5 [9, 7]).2 (by decide)

theorem validateEncryptionServices_spec_witness :
    validateEncryptionServices [1, 1, 2] [1, 2, 2] 2 =
      Except.error SealErr.inconsistentKeyServers :=
  (validateEncryptionServices_spec [1, 1, 2] [1, 2, 2] 2).1.mpr
    ⟨1, by decide, by decide⟩

theorem split_t1_spec_witness :
    split (F := ZMod 2) [1] [] 3 1 =
      some ((List.range 3).map (fun i => (i, [1]))) :=
  (split_t1_spec [1] [] 3 (by decide)).1

theorem decrypt_length_mismatch_witness :
    decryptCore natCurve zeroMac zeroMac (fun _ c _ => some c)
      (EncObj.mk 0 (List.replicate 32 (0 : ZMod 2)) []
        [(5, 1)] 0 (IBEEnc.mk 1 [] (List.replicate 32 (0 : ZMod 2)))
        CiphertextM.Plain) [] =
      Except.error SealErr.invalidCiphertext :=
  decrypt_length_mismatch natCurve zeroMac zeroMac (fun _ c _ => some c)
    (EncObj.mk 0 (List.replicate 32 (0 : ZMod 2)) []
      [(5, 1)] 0 (IBEEnc.mk 1 [] (List.replicate 32 (0 : ZMod 2)))
      CiphertextM.Plain) [] (by decide) (by decide) (by decide)

theorem kdf_block_permutation_witness :
    kdf zeroMac (List.replicate 576 (0 : ZMod 2)) [] =
      zeroMac (permuteGTSpec (List.replicate 576 (0 : ZMod 2))) [] :=
  (kdf_block_permutation zeroMac (List.replicate 576 (0 : ZMod 2)) []
    (by decide)).1

theorem hmacCtr_roundtrip_aad_tamper_witness :
    hmacCtrDecrypt takeMac [] (hmacCtrEncrypt takeMac [] [1, 0] [1]) =
      Except.ok [1, 0] ∧
    hmacCtrDecrypt takeMac []
        (swapAad (some [0]) (hmacCtrEncrypt takeMac [] [1, 0] [1])) =
      Except.error SealErr.invalidCiphertext :=
  hmacCtr_roundtrip_aad_tamper takeMac (by decide)
    (by
      intro k m
      rw [takeMac, List.length_take, List.length_append,
        List.length_replicate]
      omega)
    [] [1, 0] [1] [0] (by decide) (by decide)

theorem encryptBatched_spec_witness :
    encryptBatched natCurve zeroMac 3 [5] []
      [(List.replicate 32 (0 : ZMod 2), [])]
      (List.replicate 32 (0 : ZMod 2)) ≠ none :=
  by
    obtain ⟨enc, henc, -, -, -, -⟩ :=
      (encryptBatched_spec natCurve zeroMac 3 [5] []
        [(List.replicate 32 (0 : ZMod 2), [])]
        (List.replicate 32 (0 : ZMod 2))
        (fun _ _ => rfl)
        (by intro mi hmi; simp at hmi; rw [hmi]; rfl)
        rfl rfl).1 (by decide) (by decide)
    rw [henc]
    exact Option.noConfusion

theorem split_combine_roundtrip_witness :
    ∃ shares,
      split (List.replicate 32 (0 : ZMod 2)) (List.replicate 32 [1]) 2 2 =
        some shares ∧
      combine ([0, 1].map (fun i => shares.getD i (0, []))) =
        some (List.replicate 32 (0 : ZMod 2)) :=
  split_combine_roundtrip (List.replicate 32 (0 : ZMod 2))
    (List.replicate 32 [1]) 2 2 rfl rfl
    (by intro c hc; rw [List.eq_of_mem_replicate hc]; rfl)
    (by decide) (by decide) (by decide)
    [0, 1] (by decide) (by decide) rfl

theorem encrypt_decrypt_roundtrip_witness :
    ∃ eo demKey,
      encryptCore natCurve zeroMac zeroMac (fun _ m _ => m) [(10, 10),
          (20, 20)] 2 (List.replicate 32 (0 : ZMod 2)) []
        DemType.AesGcm256 [1, 0, 1] [1] (List.replicate 32 (0 : ZMod 2))
        (List.replicate 32 [1]) 7 = Except.ok (eo, demKey) ∧
      decryptCore natCurve zeroMac zeroMac (fun _ c _ => some c) eo
        [((fullIdOf (List.replicate 32 (0 : ZMod 2)) [], 10), 10),
         ((fullIdOf (List.replicate 32 (0 : ZMod 2)) [], 20), 20)] =
        Except.ok [1, 0, 1] :=
  encrypt_decrypt_roundtrip natCurve zeroMac zeroMac (fun _ m _ => m)
    (fun _ c _ => some c) [(10, 10), (20, 20)] 2
    (List.replicate 32 (0 : ZMod 2)) [] DemType.AesGcm256 [1, 0, 1] [1]
    (List.replicate 32 (0 : ZMod 2)) (List.replicate 32 [1]) 7
    (fun o => o)
    [((fullIdOf (List.replicate 32 (0 : ZMod 2)) [], 10), 10),
     ((fullIdOf (List.replicate 32 (0 : ZMod 2)) [], 20), 20)]
    (by decide)
    (by intro P a b; show P * a * (1 * b) = P * b * (1 * a); ring)
    (fun _ _ => rfl) (fun _ _ => rfl) (fun _ _ _ => rfl)
    rfl rfl rfl (by decide) (by decide) (by decide) rfl
    (by intro c hc; rw [List.eq_of_mem_replicate hc]; rfl)
    (by decide) (by decide)
    (by
      intro o g1 ho hg
      have ho2 : o = 10 ∨ o = 20 := by simpa using ho
      rcases ho2 with rfl | rfl
      · have hv : cacheGet
            [((fullIdOf (List.replicate 32 (0 : ZMod 2)) [], 10), 10),
             ((fullIdOf (List.replicate 32 (0 : ZMod 2)) [], 20), 20)]
            (fullIdOf (List.replicate 32 (0 : ZMod 2)) [], 10) =
            some 10 := by decide
        rw [hv] at hg
        injection hg with h
        rw [← h]
        decide
      · have hv : cacheGet
            [((fullIdOf (List.replicate 32 (0 : ZMod 2)) [], 10), 10),
             ((fullIdOf (List.replicate 32 (0 : ZMod 2)) [], 20), 20)]
            (fullIdOf (List.replicate 32 (0 : ZMod 2)) [], 20) =
            some 20 := by decide
        rw [hv] at hg
        injection hg with h
        rw [← h]
        decide)
    (by decide)

end Seal
